import Mathlib

/-!
# Doubly-linked node chains (`node.h`)

A shallow embedding of the node algebra of `node.h`.  Nodes live in an explicit
heap; a pointer is `Option Nat` (`none` is `nullptr`).  `new` appends a cell to
the heap, so the address it returns is always unused; `delete` empties the cell
and records the address in a log.  Every operation returns `none` when the C++
code would dereference a null or dangling pointer, and loops carry fuel.  A
reference parameter (`Node<T>*&`) is a variable of the caller: its value is
passed in and its final value is returned.  For `assign` the reference may also
be a link field of a node (`Ref`, `assignRef`).
-/

namespace NodeChain

/-- A pointer to a node: `none` is `nullptr`, `some a` is the address `a`. -/
abbrev Ptr := Option Nat

/-- The class `Node<T>`: user data and the two links. -/
structure Node (T : Type) where
  data : T
  pNext : Ptr
  pPrev : Ptr
deriving DecidableEq

/-- The heap: cell `a` holds the node at address `a`, or `none` once it is
deleted; `freed` logs every `delete`, oldest first. -/
structure Heap (T : Type) where
  cells : List (Option (Node T))
  freed : List Nat
deriving DecidableEq

variable {T : Type}

/-- Dereference: the live node at address `a`, if any. -/
def Heap.get (h : Heap T) (a : Nat) : Option (Node T) :=
  (h.cells[a]?).bind id

/-- Overwrite the cell at address `a`. -/
def Heap.write (h : Heap T) (a : Nat) (n : Node T) : Heap T :=
  { h with cells := h.cells.set a (some n) }

/-- The expression `new Node<T>(t)`: a fresh isolated node at the end of the heap. -/
def Heap.alloc (h : Heap T) (t : T) : Nat × Heap T :=
  (h.cells.length, { h with cells := h.cells ++ [some ⟨t, none, none⟩] })

/-- Empty the cell at address `a` and log the deallocation. -/
def Heap.erase (h : Heap T) (a : Nat) : Heap T :=
  { cells := h.cells.set a none, freed := h.freed ++ [a] }

/-- The statement `delete p` for a non-null `p`; deleting a dead cell faults. -/
def Heap.free (h : Heap T) (a : Nat) : Option (Heap T) :=
  match h.get a with
  | some _ => some (h.erase a)
  | none => none

/-- The statement `p->data = v`. -/
def Heap.setData (h : Heap T) (a : Nat) (v : T) : Option (Heap T) :=
  match h.get a with
  | some n => some (h.write a { n with data := v })
  | none => none

/-- The statement `p->pNext = q`. -/
def Heap.setNext (h : Heap T) (a : Nat) (q : Ptr) : Option (Heap T) :=
  match h.get a with
  | some n => some (h.write a { n with pNext := q })
  | none => none

/-- The statement `p->pPrev = q`. -/
def Heap.setPrev (h : Heap T) (a : Nat) (q : Ptr) : Option (Heap T) :=
  match h.get a with
  | some n => some (h.write a { n with pPrev := q })
  | none => none

/-- The function `insert(pCurrent, t, after)`: returns the new node's address. -/
def insert (h : Heap T) (pCurrent : Ptr) (t : T) (after : Bool) : Option (Nat × Heap T) :=
  let (pNew, h) := h.alloc t
  match pCurrent, after with
  | some c, false => do
    let h ← h.setNext pNew (some c)
    let cur ← h.get c
    let h ← h.setPrev pNew cur.pPrev
    let h ← h.setPrev c (some pNew)
    let new ← h.get pNew
    match new.pPrev with
    | some p => do
      let h ← h.setNext p (some pNew)
      pure (pNew, h)
    | none => pure (pNew, h)
  | some c, true => do
    let cur ← h.get c
    let h ← h.setNext pNew cur.pNext
    let h ← h.setPrev pNew (some c)
    let h ← h.setNext c (some pNew)
    let new ← h.get pNew
    match new.pNext with
    | some q => do
      let h ← h.setPrev q (some pNew)
      pure (pNew, h)
    | none => pure (pNew, h)
  | none, _ => pure (pNew, h)

/-- The function `remove(pRemove)`: returns the neighbour handed back. -/
def remove (h : Heap T) (pRemove : Ptr) : Option (Ptr × Heap T) :=
  match pRemove with
  | none => some (none, h)
  | some r => do
    let n ← h.get r
    let h ← match n.pPrev with
      | some p => h.setNext p n.pNext
      | none => pure h
    let n ← h.get r
    let h ← match n.pNext with
      | some q => h.setPrev q n.pPrev
      | none => pure h
    let n ← h.get r
    let pReturn := match n.pPrev with
      | some p => some p
      | none => n.pNext
    let h ← h.free r
    pure (pReturn, h)

/-- The loop of `size`: `s` counts the nodes passed so far.  The counter is a
`Nat`: a `size_t` cannot wrap here, since the nodes counted occupy distinct
addresses. -/
def sizeLoop : Nat → Heap T → Ptr → Nat → Option Nat
  | 0, _, _, _ => none
  | _ + 1, _, none, s => some s
  | fuel + 1, h, some a, s => do
    let n ← h.get a
    sizeLoop fuel h n.pNext (s + 1)

/-- The function `size(pHead)`. -/
def size (fuel : Nat) (h : Heap T) (pHead : Ptr) : Option Nat :=
  sizeLoop fuel h pHead 0

/-- The function `clear(pHead)`: returns the final value of the reference `pHead`. -/
def clear : Nat → Heap T → Ptr → Option (Ptr × Heap T)
  | 0, _, _ => none
  | _ + 1, h, none => some (none, h)
  | fuel + 1, h, some a => do
    let n ← h.get a
    let h ← h.free a
    clear fuel h n.pNext

/-- The loop of `copy`; its condition is `pSrcCur->pNext`, and `pSrcCur` is
advanced by reading `pSrcCur->pNext` again after the body. -/
def copyLoop : Nat → Heap T → Ptr → Ptr → Option (Heap T)
  | 0, _, _, _ => none
  | _ + 1, _, none, _ => none
  | fuel + 1, h, some s, pDesCur => do
    let src ← h.get s
    match src.pNext with
    | none => pure h
    | some s1 => do
      let nxt ← h.get s1
      let (d, h) ← insert h pDesCur nxt.data true
      let src ← h.get s
      copyLoop fuel h src.pNext (some d)

/-- The function `copy(pSource)`: returns the head of the new chain. -/
def copy (fuel : Nat) (h : Heap T) (pSource : Ptr) : Option (Ptr × Heap T) :=
  match pSource with
  | none => some (none, h)
  | some s => do
    let src ← h.get s
    let (pDestination, h) := h.alloc src.data
    let h ← copyLoop fuel h (some s) (some pDestination)
    pure (some pDestination, h)

/-- The first loop of `assign`: source values are written into the destination
nodes while both chains last.  Returns the heap and the final `pSrcCur`,
`pDesCur` and `pDesPrevious`. -/
def assignFill : Nat → Heap T → Ptr → Ptr → Ptr → Option (Heap T × Ptr × Ptr × Ptr)
  | 0, _, _, _, _ => none
  | fuel + 1, h, some s, some d, _ => do
    let src ← h.get s
    let h ← h.setData d src.data
    let des ← h.get d
    let src ← h.get s
    assignFill fuel h src.pNext des.pNext (some d)
  | _ + 1, h, pSrcCur, pDesCur, pDesPrevious => some (h, pSrcCur, pDesCur, pDesPrevious)

/-- The second loop of `assign`: the remaining source values are appended after
`pDesCur`.  Returns the heap and the final value of the reference `pDestination`. -/
def assignGrow : Nat → Heap T → Ptr → Ptr → Ptr → Option (Ptr × Heap T)
  | 0, _, _, _, _ => none
  | _ + 1, h, pDestination, none, _ => some (pDestination, h)
  | fuel + 1, h, pDestination, some s, pDesCur => do
    let src ← h.get s
    let (d, h) ← insert h pDesCur src.data true
    let pDestination := match pDestination with
      | none => some d
      | some p => some p
    let src ← h.get s
    assignGrow fuel h pDestination src.pNext (some d)

/-- The function `assign(pDestination, pSource)` when the reference
`pDestination` is a variable of the caller, held outside the nodes: returns the
final value of that variable.  `assignRef` below is the function for a reference
that may also be a link field of a node; the two agree on a variable. -/
def assign (fuel : Nat) (h : Heap T) (pDestination pSource : Ptr) : Option (Ptr × Heap T) := do
  let (h, pSrcCur, pDesCur, pDesPrevious) ← assignFill fuel h pSource pDestination none
  match pSrcCur, pDesCur with
  | some s, _ => assignGrow fuel h pDestination (some s) pDesPrevious
  | none, some d => do
    let (pDestination, h) ← match pDesPrevious with
      | some p => do
        let h ← h.setNext p none
        pure (pDestination, h)
      | none => pure (none, h)
    let (_, h) ← clear fuel h (some d)
    pure (pDestination, h)
  | none, none => pure (pDestination, h)

/-- Where the reference `Node<T>*& pDestination` lives: in a variable of the
caller, or in the `pNext` or the `pPrev` field of the node at an address. -/
inductive Ref where
  | var : Ref
  | next : Nat → Ref
  | prev : Nat → Ref
deriving DecidableEq

/-- Read the pointer behind a reference; `v` is the value of the caller's
variable.  A reference into a deleted node faults. -/
def Ref.read (r : Ref) (h : Heap T) (v : Ptr) : Option Ptr :=
  match r with
  | Ref.var => some v
  | Ref.next a => (h.get a).map Node.pNext
  | Ref.prev a => (h.get a).map Node.pPrev

/-- Store the pointer `q` through a reference: returns the caller's variable
and the heap afterwards. -/
def Ref.write (r : Ref) (h : Heap T) (v : Ptr) (q : Ptr) : Option (Ptr × Heap T) :=
  match r with
  | Ref.var => some (q, h)
  | Ref.next a => (h.setNext a q).map (fun h1 => (v, h1))
  | Ref.prev a => (h.setPrev a q).map (fun h1 => (v, h1))

/-- The second loop of `assign` with `pDestination` behind the reference `r`: the
test `!pDestination` reads through `r` after each `insert`, and the store
`pDestination = pDesCur` writes through it. -/
def assignGrowRef (r : Ref) : Nat → Heap T → Ptr → Ptr → Ptr → Option (Ptr × Heap T)
  | 0, _, _, _, _ => none
  | _ + 1, h, v, none, _ => some (v, h)
  | fuel + 1, h, v, some s, pDesCur => do
    let src ← h.get s
    let (d, h) ← insert h pDesCur src.data true
    let pDestination ← r.read h v
    let (v, h) ← match pDestination with
      | none => r.write h v (some d)
      | some _ => pure (v, h)
    let src ← h.get s
    assignGrowRef r fuel h v src.pNext (some d)

/-- The function `assign(pDestination, pSource)` with `pDestination` behind the
reference `r`: returns the final value of the caller's variable `v` and the heap. -/
def assignRef (r : Ref) (fuel : Nat) (h : Heap T) (v pSource : Ptr) : Option (Ptr × Heap T) := do
  let pDestination ← r.read h v
  let (h, pSrcCur, pDesCur, pDesPrevious) ← assignFill fuel h pSource pDestination none
  match pSrcCur, pDesCur with
  | some s, _ => assignGrowRef r fuel h v (some s) pDesPrevious
  | none, some d => do
    let (v, h) ← match pDesPrevious with
      | some p => do
        let h ← h.setNext p none
        pure (v, h)
      | none => r.write h v none
    let (_, h) ← clear fuel h (some d)
    pure (v, h)
  | none, none => pure (v, h)

/-! ## Chains

A chain is described by the list of its nodes, each an address with the value
stored there.
-/

/-- A run of linked nodes: `p` points at the first node of `l`, whose `pPrev` is
`prev`; every node's `pNext` is the next node of `l` and that node's `pPrev`
points back; the last node's `pNext` is `q`. -/
def IsSeg (h : Heap T) : Ptr → Ptr → List (Nat × T) → Ptr → Prop
  | _, p, [], q => p = q
  | prev, p, (a, v) :: l, q =>
    p = some a ∧ ∃ nx, h.get a = some ⟨v, nx, prev⟩ ∧ IsSeg h (some a) nx l q

/-- A well-formed chain with head reference `pHead`: the head has `pPrev == nullptr`,
the tail has `pNext == nullptr`, and adjacent nodes point at each other.  The
empty chain is the null head. -/
def IsChain (h : Heap T) (pHead : Ptr) (l : List (Nat × T)) : Prop :=
  IsSeg h none pHead l none

/-- The address of the last node of `l`, or `prev` when `l` is empty. -/
def lastPtr (prev : Ptr) (l : List (Nat × T)) : Ptr :=
  match l.getLast? with
  | some (a, _) => some a
  | none => prev

/-- The address of the first node of `l`, or `q` when `l` is empty. -/
def firstPtr (l : List (Nat × T)) (q : Ptr) : Ptr :=
  match l with
  | (a, _) :: _ => some a
  | [] => q

/-- The addresses of a chain's nodes, in order. -/
def addrs (l : List (Nat × T)) : List Nat := l.map Prod.fst

/-- The values of a chain's nodes, in order. -/
def values (l : List (Nat × T)) : List T := l.map Prod.snd

/-- The chain holding the values `vs` at consecutive addresses from `base` on. -/
def freshChain (base : Nat) (vs : List T) : List (Nat × T) :=
  (List.range' base vs.length).zip vs

/-- The nodes of `l` that receive a value of `vs`, holding that value: the first
`min l.length vs.length` nodes, in order. -/
def overwrite : List (Nat × T) → List T → List (Nat × T)
  | (a, _) :: l, v :: vs => (a, v) :: overwrite l vs
  | _, _ => []

/-- The destination chain that `assign` leaves: the reused nodes of `D` holding
the values of `S`, followed by fresh nodes from address `base` on for the
source nodes beyond the length of `D`. -/
def assignResult (base : Nat) (D S : List (Nat × T)) : List (Nat × T) :=
  overwrite D (values S) ++ freshChain base (values (S.drop D.length))

/-- The chain `[1, 2, 3]` at addresses 0, 1, 2. -/
def heap123 : Heap Nat :=
  ⟨[some ⟨1, some 1, none⟩, some ⟨2, some 2, some 0⟩, some ⟨3, none, some 1⟩], []⟩

/-- A destination chain `[1]` at address 0 and a source chain `[5, 6, 7]` at
addresses 1, 2, 3. -/
def heapShortDest : Heap Nat :=
  ⟨[some ⟨1, none, none⟩, some ⟨5, some 2, none⟩, some ⟨6, some 3, some 1⟩,
    some ⟨7, none, some 2⟩], []⟩

/-- The function `swap(pLHS, pRHS)`: `std::swap` on the two references.  Returns
the heap, which it never touches, and the final values of `pLHS` and `pRHS`. -/
def swap (h : Heap T) (pLHS pRHS : Ptr) : Heap T × Ptr × Ptr :=
  (h, pRHS, pLHS)

/-- The loop of `operator <<`: each value is written to the stream `out`,
followed by the marker `" -> "` when the node has a successor.  The value type's
own `<<` is the parameter `render`.  The loop only reads the heap. -/
def displayLoop (render : T → String) : Nat → Heap T → Ptr → String → Option String
  | 0, _, _, _ => none
  | _ + 1, _, none, out => some out
  | fuel + 1, h, some a, out => do
    let n ← h.get a
    let out := out ++ render n.data
    let out := match n.pNext with
      | some _ => out ++ " -> "
      | none => out
    displayLoop render fuel h n.pNext out

/-- The function `operator << (out, pHead)`: returns the stream after the writes. -/
def display (render : T → String) (fuel : Nat) (h : Heap T) (pHead : Ptr) (out : String) :
    Option String :=
  displayLoop render fuel h pHead out

/-- The text that `display` owes for the values `vs`: the renderings, with the
marker between consecutive ones. -/
def joined (render : T → String) (vs : List T) : String :=
  " -> ".intercalate (vs.map render)

/-- A destination chain `[1, 2, 3, 4]` at addresses 0 to 3 and a source chain
`[9, 8]` at addresses 4, 5. -/
def heapLongDest : Heap Nat :=
  ⟨[some ⟨1, some 1, none⟩, some ⟨2, some 2, some 0⟩, some ⟨3, some 3, some 1⟩,
    some ⟨4, none, some 2⟩, some ⟨9, some 5, none⟩, some ⟨8, none, some 4⟩], []⟩

/-- The one-node chain `[5]` at address 0. -/
def heap5 : Heap Nat :=
  ⟨[some ⟨5, none, none⟩], []⟩

/-- The chain `[1, 2]` at addresses 0, 1. -/
def heap12 : Heap Nat :=
  ⟨[some ⟨1, some 1, none⟩, some ⟨2, none, some 0⟩], []⟩

/-! ## The heap primitives -/

theorem Heap.get_lt {h : Heap T} {a : Nat} {n : Node T} (hg : h.get a = some n) :
    a < h.cells.length := by
  unfold Heap.get at hg
  by_contra hc
  rw [List.getElem?_eq_none (by omega)] at hg
  simp at hg

@[simp] theorem Heap.write_length (h : Heap T) (a : Nat) (n : Node T) :
    (h.write a n).cells.length = h.cells.length := by
  simp [Heap.write]

@[simp] theorem Heap.write_freed (h : Heap T) (a : Nat) (n : Node T) :
    (h.write a n).freed = h.freed := rfl

theorem Heap.get_write (h : Heap T) (a x : Nat) (n : Node T) :
    (h.write a n).get x = if x = a ∧ a < h.cells.length then some n else h.get x := by
  unfold Heap.get Heap.write
  simp only [List.getElem?_set]
  by_cases hx : a = x
  · subst hx
    by_cases hl : a < h.cells.length
    · simp [hl]
    · simp [hl, List.getElem?_eq_none (Nat.le_of_not_lt hl)]
  · have hx2 : ¬ x = a := fun e => hx e.symm
    simp [hx, hx2]

theorem Heap.get_alloc (h : Heap T) (t : T) (x : Nat) :
    (h.alloc t).2.get x = if x = h.cells.length then some ⟨t, none, none⟩ else h.get x := by
  unfold Heap.get Heap.alloc
  simp only [List.getElem?_append]
  by_cases hx : x < h.cells.length
  · have : ¬ x = h.cells.length := by omega
    simp [hx, this]
  · by_cases he : x = h.cells.length
    · subst he; simp
    · obtain ⟨k, hk⟩ : ∃ k, x - h.cells.length = k + 1 := ⟨x - h.cells.length - 1, by omega⟩
      simp [hx, he, hk, List.getElem?_eq_none (Nat.le_of_not_lt hx)]

theorem Heap.setNext_eq {h : Heap T} {a : Nat} {n : Node T} (hg : h.get a = some n) (q : Ptr) :
    h.setNext a q = some (h.write a { n with pNext := q }) := by
  simp [Heap.setNext, hg]

theorem Heap.setPrev_eq {h : Heap T} {a : Nat} {n : Node T} (hg : h.get a = some n) (q : Ptr) :
    h.setPrev a q = some (h.write a { n with pPrev := q }) := by
  simp [Heap.setPrev, hg]

theorem Heap.setData_eq {h : Heap T} {a : Nat} {n : Node T} (hg : h.get a = some n) (v : T) :
    h.setData a v = some (h.write a { n with data := v }) := by
  simp [Heap.setData, hg]

@[simp] theorem Heap.alloc_fst (h : Heap T) (t : T) : (h.alloc t).1 = h.cells.length := rfl

@[simp] theorem Heap.alloc_length (h : Heap T) (t : T) :
    (h.alloc t).2.cells.length = h.cells.length + 1 := by
  simp [Heap.alloc]

@[simp] theorem Heap.alloc_freed (h : Heap T) (t : T) : (h.alloc t).2.freed = h.freed := rfl

theorem Heap.get_length (h : Heap T) : h.get h.cells.length = none := by
  simp [Heap.get]

theorem insert_before_eq (h : Heap T) (c : Nat) (t v : T) (nx pv : Ptr)
    (hc : h.get c = some ⟨v, nx, pv⟩) (hpv : pv ≠ some c)
    (hp : ∀ p, pv = some p → (h.get p).isSome) :
    ∃ h1, insert h (some c) t false = some (h.cells.length, h1) ∧
      h1.cells.length = h.cells.length + 1 ∧ h1.freed = h.freed ∧
      ∀ x, h1.get x =
        if x = h.cells.length then some ⟨t, some c, pv⟩
        else if x = c then some ⟨v, nx, some h.cells.length⟩
        else if pv = some x then (h.get x).map (fun n => { n with pNext := some h.cells.length })
        else h.get x := by
  have hcl := Heap.get_lt hc
  have hne : c ≠ h.cells.length := by omega
  have hne2 : h.cells.length ≠ c := by omega
  have hcl2 := Nat.lt_succ_of_lt hcl
  cases pv with
  | none =>
    simp [insert, Heap.get_alloc, Heap.setNext, Heap.setPrev, Heap.get_write, hc, hne, hne2, hcl, hcl2]
    intro x
    by_cases h1 : x = h.cells.length
    · simp [h1, hne2]
    · by_cases h2 : x = c
      · simp [h2, hne]
      · simp [h1, h2]
  | some p =>
    have hpc : p ≠ c := fun e => hpv (by rw [e])
    obtain ⟨pn, hpn⟩ := Option.isSome_iff_exists.mp (hp p rfl)
    have hpl := Heap.get_lt hpn
    have hpl2 := Nat.lt_succ_of_lt hpl
    have hpne : p ≠ h.cells.length := by omega
    simp [insert, Heap.get_alloc, Heap.setNext, Heap.setPrev, Heap.get_write, hc, hne, hne2, hcl, hcl2,
      hpc, hpn, hpne, hpl, hpl2]
    intro x
    by_cases h1 : x = h.cells.length
    · simp [h1, hpne.symm, hne2]
    · by_cases h2 : x = c
      · simp [h2, hne, hpc.symm]
      · by_cases h3 : x = p
        · simp [h3, hpne, hpc, hpn]
        · have h4 : ¬ p = x := fun e => h3 e.symm
          simp [h1, h2, h3, h4]


theorem insert_after_eq (h : Heap T) (c : Nat) (t v : T) (nx pv : Ptr)
    (hc : h.get c = some ⟨v, nx, pv⟩) (hnx : nx ≠ some c)
    (hq : ∀ q, nx = some q → (h.get q).isSome) :
    ∃ h1, insert h (some c) t true = some (h.cells.length, h1) ∧
      h1.cells.length = h.cells.length + 1 ∧ h1.freed = h.freed ∧
      ∀ x, h1.get x =
        if x = h.cells.length then some ⟨t, nx, some c⟩
        else if x = c then some ⟨v, some h.cells.length, pv⟩
        else if nx = some x then (h.get x).map (fun n => { n with pPrev := some h.cells.length })
        else h.get x := by
  have hcl := Heap.get_lt hc
  have hne : c ≠ h.cells.length := by omega
  have hne2 : h.cells.length ≠ c := by omega
  have hcl2 := Nat.lt_succ_of_lt hcl
  cases nx with
  | none =>
    simp [insert, Heap.get_alloc, Heap.setNext, Heap.setPrev, Heap.get_write, hc, hne, hne2, hcl, hcl2]
    intro x
    by_cases h1 : x = h.cells.length
    · simp [h1, hne2]
    · by_cases h2 : x = c
      · simp [h2, hne]
      · simp [h1, h2]
  | some q =>
    have hqc : q ≠ c := fun e => hnx (by rw [e])
    obtain ⟨qn, hqn⟩ := Option.isSome_iff_exists.mp (hq q rfl)
    have hql := Heap.get_lt hqn
    have hql2 := Nat.lt_succ_of_lt hql
    have hqne : q ≠ h.cells.length := by omega
    simp [insert, Heap.get_alloc, Heap.setNext, Heap.setPrev, Heap.get_write, hc, hne, hne2, hcl, hcl2,
      hqc, hqn, hqne, hql, hql2]
    intro x
    by_cases h1 : x = h.cells.length
    · simp [h1, hqne.symm, hne2]
    · by_cases h2 : x = c
      · simp [h2, hne, hqc.symm]
      · by_cases h3 : x = q
        · simp [h3, hqne, hqc, hqn]
        · have h4 : ¬ q = x := fun e => h3 e.symm
          simp [h1, h2, h3, h4]

theorem insert_null_eq (h : Heap T) (t : T) (after : Bool) :
    insert h none t after = some (h.alloc t) := by
  cases after <;> rfl

theorem Heap.free_eq {h : Heap T} {a : Nat} {n : Node T} (hg : h.get a = some n) :
    h.free a = some (h.erase a) := by
  simp [Heap.free, hg]

@[simp] theorem Heap.erase_length (h : Heap T) (a : Nat) :
    (h.erase a).cells.length = h.cells.length := by
  simp [Heap.erase]

@[simp] theorem Heap.erase_freed (h : Heap T) (a : Nat) :
    (h.erase a).freed = h.freed ++ [a] := rfl

theorem Heap.get_erase (h : Heap T) (a x : Nat) :
    (h.erase a).get x = if x = a then none else h.get x := by
  unfold Heap.get Heap.erase
  simp only [List.getElem?_set]
  by_cases hx : a = x
  · subst hx
    by_cases hl : a < h.cells.length
    · simp [hl]
    · simp [hl]
  · have hx2 : ¬ x = a := fun e => hx e.symm
    simp [hx, hx2]

theorem remove_eq (h : Heap T) (r : Nat) (v : T) (nx pv : Ptr)
    (hr : h.get r = some ⟨v, nx, pv⟩) (hpv : pv ≠ some r) (hnx : nx ≠ some r)
    (hpq : ∀ p, pv = some p → nx ≠ some p)
    (hp : ∀ p, pv = some p → (h.get p).isSome)
    (hq : ∀ q, nx = some q → (h.get q).isSome) :
    ∃ h1, remove h (some r) = some (if pv.isSome then pv else nx, h1) ∧
      h1.cells.length = h.cells.length ∧ h1.freed = h.freed ++ [r] ∧
      ∀ x, h1.get x =
        if x = r then none
        else if pv = some x then (h.get x).map (fun n => { n with pNext := nx })
        else if nx = some x then (h.get x).map (fun n => { n with pPrev := pv })
        else h.get x := by
  have hrl := Heap.get_lt hr
  cases pv with
  | none =>
    cases nx with
    | none =>
      simp [remove, hr, Heap.free, Heap.get_erase]
    | some q =>
      have hqr : q ≠ r := fun e => hnx (by rw [e])
      have hqr2 : r ≠ q := fun e => hqr e.symm
      obtain ⟨qn, hqn⟩ := Option.isSome_iff_exists.mp (hq q rfl)
      have hql := Heap.get_lt hqn
      simp [remove, hr, Heap.free, Heap.get_erase, Heap.setPrev, hqn, Heap.get_write, hqr, hqr2, hql]
      intro x
      by_cases h1 : x = r
      · simp [h1]
      · by_cases h2 : x = q
        · simp [h2, hqr, hqn, hql]
        · have h3 : ¬ q = x := fun e => h2 e.symm
          simp [h1, h2, h3]
  | some p =>
    have hpr : p ≠ r := fun e => hpv (by rw [e])
    have hpr2 : r ≠ p := fun e => hpr e.symm
    obtain ⟨pn, hpn⟩ := Option.isSome_iff_exists.mp (hp p rfl)
    have hpl := Heap.get_lt hpn
    cases nx with
    | none =>
      simp [remove, hr, Heap.free, Heap.get_erase, Heap.setNext, hpn, Heap.get_write, hpr, hpr2, hpl]
      intro x
      by_cases h1 : x = r
      · simp [h1]
      · by_cases h2 : x = p
        · simp [h2, hpr, hpn, hpl]
        · have h3 : ¬ p = x := fun e => h2 e.symm
          simp [h1, h2, h3]
    | some q =>
      have hqr : q ≠ r := fun e => hnx (by rw [e])
      have hqr2 : r ≠ q := fun e => hqr e.symm
      have hqp : q ≠ p := fun e => hpq p rfl (by rw [e])
      have hqp2 : p ≠ q := fun e => hqp e.symm
      obtain ⟨qn, hqn⟩ := Option.isSome_iff_exists.mp (hq q rfl)
      have hql := Heap.get_lt hqn
      simp [remove, hr, Heap.free, Heap.get_erase, Heap.setNext, Heap.setPrev, hpn, hqn, Heap.get_write,
        hpr, hpr2, hpl, hqr, hqr2, hql, hqp, hqp2]
      intro x
      by_cases h1 : x = r
      · simp [h1]
      · by_cases h2 : x = p
        · simp [h2, hpr, hpn, hpl, hqp, hqp2]
        · have h3 : ¬ p = x := fun e => h2 e.symm
          by_cases h4 : x = q
          · simp [h4, hqr, hqn, hqp, hqp2]
          · have h5 : ¬ q = x := fun e => h4 e.symm
            simp [h1, h2, h3, h4, h5]

/-! ## Segments and chains -/

theorem IsSeg.frame {h g : Heap T} {l : List (Nat × T)} :
    ∀ {prev p q : Ptr}, IsSeg h prev p l q → (∀ a ∈ addrs l, g.get a = h.get a) →
      IsSeg g prev p l q := by
  induction l with
  | nil => intro prev p q hs _; exact hs
  | cons x l ih =>
    intro prev p q hs hfr
    obtain ⟨a, v⟩ := x
    obtain ⟨hp, nx, hget, hrest⟩ := hs
    refine ⟨hp, nx, ?_, ih hrest (fun b hb => hfr b ?_)⟩
    · rw [hfr a (by simp [addrs])]; exact hget
    · simp only [addrs, List.map_cons, List.mem_cons] at hb ⊢
      exact Or.inr hb

theorem IsSeg.live {h : Heap T} {l : List (Nat × T)} :
    ∀ {prev p q : Ptr}, IsSeg h prev p l q → ∀ a v, (a, v) ∈ l →
      ∃ nx pv, h.get a = some ⟨v, nx, pv⟩ := by
  induction l with
  | nil => intro prev p q _ a v hm; simp at hm
  | cons x l ih =>
    intro prev p q hs a v hm
    obtain ⟨b, w⟩ := x
    obtain ⟨_, nx, hget, hrest⟩ := hs
    rcases List.mem_cons.mp hm with he | hm
    · cases he; exact ⟨nx, prev, hget⟩
    · exact ih hrest a v hm

theorem IsSeg.lt_length {h : Heap T} {l : List (Nat × T)} {prev p q : Ptr}
    (hs : IsSeg h prev p l q) : ∀ a ∈ addrs l, a < h.cells.length := by
  intro a ha
  simp only [addrs, List.mem_map] at ha
  obtain ⟨⟨b, v⟩, hm, rfl⟩ := ha
  obtain ⟨nx, pv, hg⟩ := hs.live b v hm
  exact Heap.get_lt hg

theorem lastPtr_cons (prev : Ptr) (x : Nat × T) (l : List (Nat × T)) :
    lastPtr prev (x :: l) = lastPtr (some x.1) l := by
  cases l with
  | nil => rfl
  | cons y l =>
    simp only [lastPtr, List.getLast?_cons_cons]
    cases hl : (y :: l).getLast? with
    | none => simp at hl
    | some z => rfl

theorem lastPtr_concat (prev : Ptr) (l : List (Nat × T)) (a : Nat) (v : T) :
    lastPtr prev (l ++ [(a, v)]) = some a := by
  simp [lastPtr]

theorem IsSeg.append_iff {h : Heap T} {l1 l2 : List (Nat × T)} :
    ∀ {prev p q : Ptr}, IsSeg h prev p (l1 ++ l2) q ↔
      ∃ m, IsSeg h prev p l1 m ∧ IsSeg h (lastPtr prev l1) m l2 q := by
  induction l1 with
  | nil =>
    intro prev p q
    constructor
    · intro hs; exact ⟨p, rfl, hs⟩
    · rintro ⟨m, hm, hs⟩
      cases hm
      exact hs
  | cons x l1 ih =>
    intro prev p q
    obtain ⟨a, v⟩ := x
    have hlast : lastPtr prev ((a, v) :: l1) = lastPtr (some a) l1 := lastPtr_cons prev (a, v) l1
    constructor
    · rintro ⟨hp, nx, hget, hrest⟩
      obtain ⟨m, h1, h2⟩ := ih.mp hrest
      exact ⟨m, ⟨hp, nx, hget, h1⟩, hlast ▸ h2⟩
    · rintro ⟨m, ⟨hp, nx, hget, h1⟩, h2⟩
      exact ⟨hp, nx, hget, ih.mpr ⟨m, h1, hlast ▸ h2⟩⟩

/-- Following `pNext` from a pointer determines the chain that ends at null. -/
theorem IsSeg.unique {h : Heap T} {l : List (Nat × T)} :
    ∀ {l2 : List (Nat × T)} {prev prev2 p : Ptr}, IsSeg h prev p l none →
      IsSeg h prev2 p l2 none → l = l2 := by
  induction l with
  | nil =>
    intro l2 prev prev2 p hs hs2
    cases hs
    cases l2 with
    | nil => rfl
    | cons y l2 => obtain ⟨a, v⟩ := y; exact absurd hs2.1 (by simp)
  | cons x l ih =>
    intro l2 prev prev2 p hs hs2
    obtain ⟨a, v⟩ := x
    obtain ⟨hp, nx, hget, hrest⟩ := hs
    cases l2 with
    | nil => cases hs2; simp at hp
    | cons y l2 =>
      obtain ⟨b, w⟩ := y
      obtain ⟨hp2, nx2, hget2, hrest2⟩ := hs2
      rw [hp] at hp2
      cases hp2
      rw [hget] at hget2
      cases hget2
      rw [ih hrest hrest2]

theorem IsSeg.nodup {h : Heap T} {l : List (Nat × T)} :
    ∀ {prev p : Ptr}, IsSeg h prev p l none → (addrs l).Nodup := by
  induction l with
  | nil => intro prev p _; simp [addrs]
  | cons x l ih =>
    intro prev p hs
    obtain ⟨a, v⟩ := x
    have hs0 := hs
    obtain ⟨hp, nx, hget, hrest⟩ := hs
    simp only [addrs, List.map_cons, List.nodup_cons]
    refine ⟨?_, ih hrest⟩
    intro hmem
    obtain ⟨⟨b, w⟩, hm, hb⟩ := List.mem_map.mp hmem
    simp only at hb
    subst hb
    obtain ⟨s, t, hst⟩ := List.append_of_mem hm
    rw [hst] at hrest
    obtain ⟨m, _, h2⟩ := IsSeg.append_iff.mp hrest
    have hm2 : m = some b := h2.1
    rw [hm2, ← hp] at h2
    have := IsSeg.unique hs0 h2
    have hlen := congrArg List.length this
    rw [hst] at hlen
    simp at hlen
    omega

theorem sizeLoop_seg {h : Heap T} {l : List (Nat × T)} :
    ∀ {prev p : Ptr} (fuel s : Nat), IsSeg h prev p l none → l.length < fuel →
      sizeLoop fuel h p s = some (s + l.length) := by
  induction l with
  | nil =>
    intro prev p fuel s hs hf
    cases hs
    cases fuel with
    | zero => simp at hf
    | succ f => rfl
  | cons x l ih =>
    intro prev p fuel s hs hf
    obtain ⟨a, v⟩ := x
    obtain ⟨hp, nx, hget, hrest⟩ := hs
    cases fuel with
    | zero => simp at hf
    | succ f =>
      simp only [List.length_cons, Nat.add_lt_add_iff_right] at hf
      subst hp
      simp only [sizeLoop, hget, Option.bind_eq_bind, Option.some_bind]
      rw [ih f (s + 1) hrest hf]
      simp only [List.length_cons]
      congr 1
      omega

theorem size_chain {h : Heap T} {l : List (Nat × T)} {p : Ptr} (fuel : Nat)
    (hc : IsChain h p l) (hf : l.length < fuel) : size fuel h p = some l.length := by
  unfold size
  rw [sizeLoop_seg fuel 0 hc hf]
  simp


theorem lastPtr_mem {prev : Ptr} {l : List (Nat × T)} {a : Nat} (hne : l ≠ [])
    (hl : lastPtr prev l = some a) : a ∈ addrs l := by
  obtain ⟨l1, x, rfl⟩ := (List.eq_nil_or_concat l).resolve_left hne
  obtain ⟨b, w⟩ := x
  rw [List.concat_eq_append, lastPtr_concat] at hl
  cases hl
  simp [addrs]

theorem addrs_append (l1 l2 : List (Nat × T)) : addrs (l1 ++ l2) = addrs l1 ++ addrs l2 := by
  simp [addrs]

theorem addrs_cons (x : Nat × T) (l : List (Nat × T)) : addrs (x :: l) = x.1 :: addrs l := rfl

theorem IsSeg.start {h : Heap T} {l : List (Nat × T)} {prev p q : Ptr}
    (hs : IsSeg h prev p l q) : p = firstPtr l q := by
  cases l with
  | nil => exact hs
  | cons x l => exact hs.1

/-- Redirecting the `pNext` of a segment's last node moves the segment's exit. -/
theorem IsSeg.relink_last {h g : Heap T} {l : List (Nat × T)} {prev p q : Ptr} (q2 : Ptr)
    (hs : IsSeg h prev p l q) (hnd : (addrs l).Nodup)
    (hg : ∀ a ∈ addrs l, g.get a =
      if lastPtr none l = some a then (h.get a).map (fun n => { n with pNext := q2 }) else h.get a) :
    IsSeg g prev (firstPtr l q2) l q2 := by
  rcases List.eq_nil_or_concat l with rfl | ⟨l1, x, rfl⟩
  · simp [IsSeg, firstPtr]
  · obtain ⟨a, v⟩ := x
    rw [List.concat_eq_append] at hs hnd hg ⊢
    have hfp : firstPtr (l1 ++ [(a, v)]) q2 = p := by
      rw [hs.start]
      cases l1 <;> rfl
    rw [hfp]
    obtain ⟨m, h1, h2⟩ := IsSeg.append_iff.mp hs
    obtain ⟨hm, nx, hget, hnil⟩ := h2
    rw [addrs_append, List.nodup_append] at hnd
    have hal : a ∉ addrs l1 := fun hmem => hnd.2.2 hmem (by simp [addrs])
    refine IsSeg.append_iff.mpr ⟨m, h1.frame (fun b hb => ?_), hm, q2, ?_, rfl⟩
    · have hba : ¬ a = b := fun e => hal (e ▸ hb)
      rw [hg b (by simp [addrs_append, hb]), lastPtr_concat]
      simp [hba]
    · rw [hg a (by simp [addrs]), lastPtr_concat]
      simp [hget]

/-- Redirecting the `pPrev` of a segment's first node changes the segment's entry link. -/
theorem IsSeg.relink_first {h g : Heap T} {l : List (Nat × T)} {prev p q : Ptr} (prev2 : Ptr)
    (hs : IsSeg h prev p l q) (hnd : (addrs l).Nodup)
    (hg : ∀ a ∈ addrs l, g.get a =
      if firstPtr l none = some a then (h.get a).map (fun n => { n with pPrev := prev2 }) else h.get a) :
    IsSeg g prev2 p l q := by
  cases l with
  | nil => exact hs
  | cons x l =>
    obtain ⟨a, v⟩ := x
    obtain ⟨hp, nx, hget, hrest⟩ := hs
    rw [addrs_cons, List.nodup_cons] at hnd
    refine ⟨hp, nx, ?_, hrest.frame (fun b hb => ?_)⟩
    · rw [hg a (by simp [addrs])]
      simp [firstPtr, hget]
    · have hba : ¬ a = b := fun e => hnd.1 (e ▸ hb)
      rw [hg b (by simp [addrs_cons, hb])]
      simp [firstPtr, hba]

/-- A node inside a well-formed chain, with the runs before and after it. -/
theorem IsChain.split {h : Heap T} {head : Ptr} {l1 l2 : List (Nat × T)} {c : Nat} {v : T}
    (hc : IsChain h head (l1 ++ (c, v) :: l2)) :
    IsSeg h none head l1 (some c) ∧ h.get c = some ⟨v, firstPtr l2 none, lastPtr none l1⟩ ∧
      IsSeg h (some c) (firstPtr l2 none) l2 none ∧
      (addrs l1).Nodup ∧ (addrs l2).Nodup ∧ c ∉ addrs l1 ∧ c ∉ addrs l2 ∧
      (∀ a ∈ addrs l1, a ∉ addrs l2) := by
  have hnd := IsSeg.nodup hc
  obtain ⟨m, h1, h2⟩ := IsSeg.append_iff.mp hc
  obtain ⟨hm, nx, hget, hrest⟩ := h2
  subst hm
  have hnx : nx = firstPtr l2 none := by
    cases l2 with
    | nil => exact hrest
    | cons y l2 => exact hrest.1
  subst hnx
  rw [addrs_append, addrs_cons, List.nodup_append, List.nodup_cons] at hnd
  obtain ⟨n1, ⟨n2, n3⟩, n4⟩ := hnd
  refine ⟨h1, hget, hrest, n1, n3, ?_, n2, ?_⟩
  · intro hmem; exact n4 hmem (by simp)
  · intro a ha hb; exact n4 ha (by simp [hb])

theorem insertIdx_length_append (l1 l2 : List T) (t : T) :
    List.insertIdx l1.length t (l1 ++ l2) = l1 ++ t :: l2 := by
  induction l1 with
  | nil => rfl
  | cons x l1 ih =>
    show x :: List.insertIdx l1.length t (l1 ++ l2) = x :: (l1 ++ t :: l2)
    rw [ih]

theorem eraseIdx_length_append (l1 l2 : List T) (x : T) :
    (l1 ++ x :: l2).eraseIdx l1.length = l1 ++ l2 := by
  induction l1 with
  | nil => rfl
  | cons y l1 ih =>
    show y :: (l1 ++ x :: l2).eraseIdx l1.length = y :: (l1 ++ l2)
    rw [ih]

theorem lastPtr_live {h : Heap T} {l : List (Nat × T)} {prev p q : Ptr} {a : Nat}
    (hs : IsSeg h prev p l q) (hne : l ≠ []) (hl : lastPtr prev l = some a) :
    ∃ v pv, h.get a = some ⟨v, q, pv⟩ := by
  obtain ⟨l1, x, rfl⟩ := (List.eq_nil_or_concat l).resolve_left hne
  obtain ⟨b, w⟩ := x
  rw [List.concat_eq_append] at hs hl
  rw [lastPtr_concat] at hl
  cases hl
  obtain ⟨m, _, h2⟩ := IsSeg.append_iff.mp hs
  obtain ⟨_, nx, hget, hnil⟩ := h2
  cases hnil
  exact ⟨w, _, hget⟩

theorem lastPtr_none_nil {l : List (Nat × T)} {a : Nat} (hl : lastPtr none l = some a) :
    l ≠ [] := by
  rintro rfl
  simp [lastPtr] at hl

theorem firstPtr_none_nil {l : List (Nat × T)} {a : Nat} (hl : firstPtr l none = some a) :
    l ≠ [] := by
  rintro rfl
  simp [firstPtr] at hl

theorem firstPtr_mem {q : Ptr} {l : List (Nat × T)} {a : Nat} (hne : l ≠ [])
    (hl : firstPtr l q = some a) : a ∈ addrs l := by
  cases l with
  | nil => exact absurd rfl hne
  | cons x l =>
    simp only [firstPtr, Option.some.injEq] at hl
    simp [addrs, hl]

theorem firstPtr_live {h : Heap T} {l : List (Nat × T)} {prev p q : Ptr} {a : Nat}
    (hs : IsSeg h prev p l q) (hne : l ≠ []) (hl : firstPtr l q = some a) :
    ∃ v nx, h.get a = some ⟨v, nx, prev⟩ := by
  cases l with
  | nil => exact absurd rfl hne
  | cons x l =>
    obtain ⟨b, w⟩ := x
    simp only [firstPtr, Option.some.injEq] at hl
    subst hl
    obtain ⟨_, nx, hget, _⟩ := hs
    exact ⟨w, nx, hget⟩

/-- C4: `insert(position, v, after = false)` on a node of a well-formed chain
allocates one node, links it immediately before `position` and returns it; the
chain gains `t` at the index of `position`. -/
theorem insert_before_position (h : Heap T) (head : Ptr) (l1 l2 : List (Nat × T)) (c : Nat)
    (v t : T) (hwf : IsChain h head (l1 ++ (c, v) :: l2)) :
    ∃ h1 nx pv,
      insert h (some c) t false = some (h.cells.length, h1) ∧
      h.get h.cells.length = none ∧ h1.cells.length = h.cells.length + 1 ∧ h1.freed = h.freed ∧
      h.get c = some ⟨v, nx, pv⟩ ∧
      h1.get h.cells.length = some ⟨t, some c, pv⟩ ∧
      h1.get c = some ⟨v, nx, some h.cells.length⟩ ∧
      (∀ p, pv = some p →
        ∃ n, h.get p = some n ∧ h1.get p = some { n with pNext := some h.cells.length }) ∧
      IsChain h1 (firstPtr l1 (some h.cells.length))
        (l1 ++ (h.cells.length, t) :: (c, v) :: l2) ∧
      values (l1 ++ (h.cells.length, t) :: (c, v) :: l2) =
        List.insertIdx l1.length t (values (l1 ++ (c, v) :: l2)) ∧
      ∀ fuel, (l1 ++ (c, v) :: l2).length + 1 < fuel →
        size fuel h1 (firstPtr l1 (some h.cells.length)) =
          some ((l1 ++ (c, v) :: l2).length + 1) := by
  obtain ⟨hs1, hget, hs2, nd1, nd2, hc1, hc2, hdisj⟩ := hwf.split
  have hlt1 := hs1.lt_length
  have hlt2 := hs2.lt_length
  have hcl := Heap.get_lt hget
  have hpv : lastPtr none l1 ≠ some c := fun e => hc1 (lastPtr_mem (lastPtr_none_nil e) e)
  have hp : ∀ p, lastPtr none l1 = some p → (h.get p).isSome := by
    intro p e
    obtain ⟨w, pv, hg⟩ := lastPtr_live hs1 (lastPtr_none_nil e) e
    simp [hg]
  obtain ⟨h1, hins, hlen, hfreed, hall⟩ := insert_before_eq h c t v _ _ hget hpv hp
  have hne : c ≠ h.cells.length := by omega
  have hnew : h1.get h.cells.length = some ⟨t, some c, lastPtr none l1⟩ := by
    rw [hall]; simp
  have hcur : h1.get c = some ⟨v, firstPtr l2 none, some h.cells.length⟩ := by
    rw [hall]; simp [hne]
  have hch : IsChain h1 (firstPtr l1 (some h.cells.length))
      (l1 ++ (h.cells.length, t) :: (c, v) :: l2) := by
    refine IsSeg.append_iff.mpr ⟨some h.cells.length, ?_, rfl, some c, hnew, rfl, _, hcur, ?_⟩
    · refine hs1.relink_last (some h.cells.length) nd1 (fun a ha => ?_)
      have h1a : a ≠ h.cells.length := by have := hlt1 a ha; omega
      have h2a : a ≠ c := fun e => hc1 (e ▸ ha)
      rw [hall]; simp [h1a, h2a]
    · refine hs2.frame (fun a ha => ?_)
      have h1a : a ≠ h.cells.length := by have := hlt2 a ha; omega
      have h2a : a ≠ c := fun e => hc2 (e ▸ ha)
      have h3a : ¬ lastPtr none l1 = some a := fun e =>
        hdisj a (lastPtr_mem (lastPtr_none_nil e) e) ha
      rw [hall]; simp [h1a, h2a, h3a]
  refine ⟨h1, _, _, hins, Heap.get_length h, hlen, hfreed, hget, hnew, hcur, ?_, hch, ?_, ?_⟩
  · intro p e
    obtain ⟨n, hn⟩ := Option.isSome_iff_exists.mp (hp p e)
    have h1p : p ≠ h.cells.length := by have := Heap.get_lt hn; omega
    have h2p : p ≠ c := fun e2 => hpv (e2 ▸ e)
    refine ⟨n, hn, ?_⟩
    rw [hall]; simp [h1p, h2p, e, hn]
  · simp only [values, List.map_append, List.map_cons]
    rw [← List.length_map l1 Prod.snd, insertIdx_length_append]
  · intro fuel hf
    rw [size_chain fuel hch (by simpa using hf)]
    simp only [List.length_append, List.length_cons]
    congr 1

/-- C5: `insert(position, v, after = true)` on a node of a well-formed chain
allocates one node, links it immediately after `position` and returns it; the
chain gains `t` at the index after that of `position`. -/
theorem insert_after_position (h : Heap T) (head : Ptr) (l1 l2 : List (Nat × T)) (c : Nat)
    (v t : T) (hwf : IsChain h head (l1 ++ (c, v) :: l2)) :
    ∃ h1 nx pv,
      insert h (some c) t true = some (h.cells.length, h1) ∧
      h.get h.cells.length = none ∧ h1.cells.length = h.cells.length + 1 ∧ h1.freed = h.freed ∧
      h.get c = some ⟨v, nx, pv⟩ ∧
      h1.get h.cells.length = some ⟨t, nx, some c⟩ ∧
      h1.get c = some ⟨v, some h.cells.length, pv⟩ ∧
      (∀ q, nx = some q →
        ∃ n, h.get q = some n ∧ h1.get q = some { n with pPrev := some h.cells.length }) ∧
      IsChain h1 head (l1 ++ (c, v) :: (h.cells.length, t) :: l2) ∧
      values (l1 ++ (c, v) :: (h.cells.length, t) :: l2) =
        List.insertIdx (l1.length + 1) t (values (l1 ++ (c, v) :: l2)) ∧
      ∀ fuel, (l1 ++ (c, v) :: l2).length + 1 < fuel →
        size fuel h1 head = some ((l1 ++ (c, v) :: l2).length + 1) := by
  obtain ⟨hs1, hget, hs2, nd1, nd2, hc1, hc2, hdisj⟩ := hwf.split
  have hlt1 := hs1.lt_length
  have hlt2 := hs2.lt_length
  have hcl := Heap.get_lt hget
  have hnx : firstPtr l2 none ≠ some c := fun e => hc2 (firstPtr_mem (firstPtr_none_nil e) e)
  have hq : ∀ q, firstPtr l2 none = some q → (h.get q).isSome := by
    intro q e
    obtain ⟨w, nx, hg⟩ := firstPtr_live hs2 (firstPtr_none_nil e) e
    simp [hg]
  obtain ⟨h1, hins, hlen, hfreed, hall⟩ := insert_after_eq h c t v _ _ hget hnx hq
  have hne : c ≠ h.cells.length := by omega
  have hnew : h1.get h.cells.length = some ⟨t, firstPtr l2 none, some c⟩ := by
    rw [hall]; simp
  have hcur : h1.get c = some ⟨v, some h.cells.length, lastPtr none l1⟩ := by
    rw [hall]; simp [hne]
  have hch : IsChain h1 head (l1 ++ (c, v) :: (h.cells.length, t) :: l2) := by
    refine IsSeg.append_iff.mpr ⟨some c, ?_, rfl, _, hcur, rfl, _, hnew, ?_⟩
    · refine hs1.frame (fun a ha => ?_)
      have h1a : a ≠ h.cells.length := by have := hlt1 a ha; omega
      have h2a : a ≠ c := fun e => hc1 (e ▸ ha)
      have h3a : ¬ firstPtr l2 none = some a := fun e =>
        hdisj a ha (firstPtr_mem (firstPtr_none_nil e) e)
      rw [hall]; simp [h1a, h2a, h3a]
    · refine hs2.relink_first (some h.cells.length) nd2 (fun a ha => ?_)
      have h1a : a ≠ h.cells.length := by have := hlt2 a ha; omega
      have h2a : a ≠ c := fun e => hc2 (e ▸ ha)
      rw [hall]; simp [h1a, h2a]
  refine ⟨h1, _, _, hins, Heap.get_length h, hlen, hfreed, hget, hnew, hcur, ?_, hch, ?_, ?_⟩
  · intro q e
    obtain ⟨n, hn⟩ := Option.isSome_iff_exists.mp (hq q e)
    have h1q : q ≠ h.cells.length := by have := Heap.get_lt hn; omega
    have h2q : q ≠ c := fun e2 => hnx (e2 ▸ e)
    refine ⟨n, hn, ?_⟩
    rw [hall]; simp [h1q, h2q, e, hn]
  · simp only [values, List.map_append, List.map_cons]
    have := insertIdx_length_append (List.map Prod.snd l1 ++ [v]) (List.map Prod.snd l2) t
    simpa using this.symm
  · intro fuel hf
    rw [size_chain fuel hch (by simpa using hf)]
    simp only [List.length_append, List.length_cons]
    congr 1

/-- C6: `insert(nullptr, v, after)` returns a new isolated node holding `v`, with
both links null, and leaves every existing node as it was. -/
theorem insert_null_isolated (h : Heap T) (t : T) (after : Bool) :
    ∃ h1, insert h none t after = some (h.cells.length, h1) ∧
      h.get h.cells.length = none ∧
      h1.get h.cells.length = some ⟨t, none, none⟩ ∧
      h1.cells.length = h.cells.length + 1 ∧ h1.freed = h.freed ∧
      ∀ x, x ≠ h.cells.length → h1.get x = h.get x := by
  refine ⟨(h.alloc t).2, insert_null_eq h t after, Heap.get_length h, ?_, by simp, rfl, ?_⟩
  · rw [Heap.get_alloc]; simp
  · intro x hx
    rw [Heap.get_alloc]; simp [hx]

/-- The effect of `remove` on a node of a well-formed chain, cell by cell. -/
theorem remove_chain_eq {h : Heap T} {head : Ptr} {l1 l2 : List (Nat × T)} {r : Nat} {v : T}
    (hwf : IsChain h head (l1 ++ (r, v) :: l2)) :
    ∃ h1, remove h (some r) =
        some (if (lastPtr none l1).isSome then lastPtr none l1 else firstPtr l2 none, h1) ∧
      h1.cells.length = h.cells.length ∧ h1.freed = h.freed ++ [r] ∧
      (∀ x, h1.get x =
        if x = r then none
        else if lastPtr none l1 = some x then
          (h.get x).map (fun n => { n with pNext := firstPtr l2 none })
        else if firstPtr l2 none = some x then
          (h.get x).map (fun n => { n with pPrev := lastPtr none l1 })
        else h.get x) ∧
      IsChain h1 (firstPtr l1 (firstPtr l2 none)) (l1 ++ l2) := by
  obtain ⟨hs1, hget, hs2, nd1, nd2, hc1, hc2, hdisj⟩ := hwf.split
  have hpv : lastPtr none l1 ≠ some r := fun e => hc1 (lastPtr_mem (lastPtr_none_nil e) e)
  have hnx : firstPtr l2 none ≠ some r := fun e => hc2 (firstPtr_mem (firstPtr_none_nil e) e)
  have hpq : ∀ p, lastPtr none l1 = some p → firstPtr l2 none ≠ some p := fun p e e2 =>
    hdisj p (lastPtr_mem (lastPtr_none_nil e) e) (firstPtr_mem (firstPtr_none_nil e2) e2)
  have hp : ∀ p, lastPtr none l1 = some p → (h.get p).isSome := by
    intro p e
    obtain ⟨w, pv, hg⟩ := lastPtr_live hs1 (lastPtr_none_nil e) e
    simp [hg]
  have hq : ∀ q, firstPtr l2 none = some q → (h.get q).isSome := by
    intro q e
    obtain ⟨w, nx, hg⟩ := firstPtr_live hs2 (firstPtr_none_nil e) e
    simp [hg]
  obtain ⟨h1, hrem, hlen, hfreed, hall⟩ := remove_eq h r v _ _ hget hpv hnx hpq hp hq
  refine ⟨h1, hrem, hlen, hfreed, hall, ?_⟩
  refine IsSeg.append_iff.mpr ⟨firstPtr l2 none, ?_, ?_⟩
  · refine hs1.relink_last (firstPtr l2 none) nd1 (fun a ha => ?_)
    have h1a : a ≠ r := fun e => hc1 (e ▸ ha)
    have h2a : ¬ firstPtr l2 none = some a := fun e =>
      hdisj a ha (firstPtr_mem (firstPtr_none_nil e) e)
    rw [hall]; simp [h1a, h2a]
  · refine hs2.relink_first (lastPtr none l1) nd2 (fun a ha => ?_)
    have h1a : a ≠ r := fun e => hc2 (e ▸ ha)
    have h2a : ¬ lastPtr none l1 = some a := fun e =>
      hdisj a (lastPtr_mem (lastPtr_none_nil e) e) ha
    rw [hall]; simp [h1a, h2a]

/-- C7: `remove(n)` on a node of a well-formed chain relinks the neighbours of `n`
to each other, deletes `n` once, and leaves the chain without the element at the
index of `n`; no other node changes its value. -/
theorem remove_unlinks_node (h : Heap T) (head : Ptr) (l1 l2 : List (Nat × T)) (r : Nat) (v : T)
    (hwf : IsChain h head (l1 ++ (r, v) :: l2)) :
    ∃ h1 ret nx pv,
      remove h (some r) = some (ret, h1) ∧
      h.get r = some ⟨v, nx, pv⟩ ∧
      (∀ p, pv = some p → ∃ n, h.get p = some n ∧ h1.get p = some { n with pNext := nx }) ∧
      (∀ q, nx = some q → ∃ n, h.get q = some n ∧ h1.get q = some { n with pPrev := pv }) ∧
      h1.get r = none ∧ h1.freed = h.freed ++ [r] ∧ h1.cells.length = h.cells.length ∧
      IsChain h1 (firstPtr l1 nx) (l1 ++ l2) ∧
      values (l1 ++ l2) = (values (l1 ++ (r, v) :: l2)).eraseIdx l1.length ∧
      (∀ x, x ≠ r → (h1.get x).map Node.data = (h.get x).map Node.data) ∧
      (ret = if pv.isSome then pv else nx) ∧
      ∀ fuel, (l1 ++ (r, v) :: l2).length < fuel →
        size fuel h1 (firstPtr l1 nx) = some ((l1 ++ (r, v) :: l2).length - 1) := by
  obtain ⟨hs1, hget, hs2, nd1, nd2, hc1, hc2, hdisj⟩ := hwf.split
  obtain ⟨h1, hrem, hlen, hfreed, hall, hch⟩ := remove_chain_eq hwf
  refine ⟨h1, _, _, _, hrem, hget, ?_, ?_, ?_, hfreed, hlen, hch, ?_, ?_, rfl, ?_⟩
  · intro p e
    obtain ⟨w, pv, hg⟩ := lastPtr_live hs1 (lastPtr_none_nil e) e
    have hpr : p ≠ r := fun e2 => hc1 (e2 ▸ lastPtr_mem (lastPtr_none_nil e) e)
    refine ⟨_, hg, ?_⟩
    rw [hall]; simp [hpr, e, hg]
  · intro q e
    obtain ⟨w, nx, hg⟩ := firstPtr_live hs2 (firstPtr_none_nil e) e
    have hqm := firstPtr_mem (firstPtr_none_nil e) e
    have hqr : q ≠ r := fun e2 => hc2 (e2 ▸ hqm)
    have hqp : ¬ lastPtr none l1 = some q := fun e2 =>
      hdisj q (lastPtr_mem (lastPtr_none_nil e2) e2) hqm
    refine ⟨_, hg, ?_⟩
    rw [hall]; simp [hqr, hqp, e, hg]
  · rw [hall]; simp
  · simp only [values, List.map_append, List.map_cons]
    rw [← List.length_map l1 Prod.snd, eraseIdx_length_append]
  · intro x hx
    rw [hall]
    simp only [hx, if_false]
    split_ifs <;> cases h.get x <;> rfl
  · intro fuel hf
    rw [size_chain fuel hch (by simp at hf ⊢; omega)]
    simp

/-- C8: `remove(n)` hands back the previous neighbour of `n` when there is one,
else the next neighbour, else null; `remove(nullptr)` returns null and leaves the
heap, with its deallocation log, as it was. -/
theorem remove_returns_neighbour (h : Heap T) (head : Ptr) (l1 l2 : List (Nat × T)) (r : Nat) (v : T)
    (hwf : IsChain h head (l1 ++ (r, v) :: l2)) :
    remove h none = some (none, h) ∧
    ∃ h1 nx pv,
      h.get r = some ⟨v, nx, pv⟩ ∧ pv = lastPtr none l1 ∧ nx = firstPtr l2 none ∧
      remove h (some r) = some ((match pv with | some p => some p | none => nx), h1) ∧
      (pv = none → nx = none → l1 = [] ∧ l2 = []) := by
  obtain ⟨hs1, hget, hs2, nd1, nd2, hc1, hc2, hdisj⟩ := hwf.split
  obtain ⟨h1, hrem, hlen, hfreed, hall, hch⟩ := remove_chain_eq hwf
  refine ⟨rfl, h1, _, _, hget, rfl, rfl, ?_, ?_⟩
  · rw [hrem]
    cases lastPtr none l1 <;> rfl
  · intro e1 e2
    constructor
    · rcases List.eq_nil_or_concat l1 with rfl | ⟨l, x, rfl⟩
      · rfl
      · rw [List.concat_eq_append, lastPtr_concat] at e1
        cases e1
    · cases l2 with
      | nil => rfl
      | cons y l2 => cases e2

/-- C9: `remove(head)` on a non-empty well-formed chain returns the old next
neighbour of the head (null for a one-node chain); that node now has a null
`pPrev`, and the chain counted from it is one node shorter. -/
theorem remove_head_returns_next (h : Heap T) (a : Nat) (v : T) (l : List (Nat × T))
    (hwf : IsChain h (some a) ((a, v) :: l)) :
    ∃ h1 nx pv,
      h.get a = some ⟨v, nx, pv⟩ ∧
      remove h (some a) = some (nx, h1) ∧
      (l = [] → nx = none) ∧
      (∀ q, nx = some q → ∃ n, h1.get q = some n ∧ n.pPrev = none) ∧
      IsChain h1 nx l ∧
      ∀ fuel, ((a, v) :: l).length < fuel →
        size fuel h (some a) = some ((a, v) :: l).length ∧
        size fuel h1 nx = some (((a, v) :: l).length - 1) := by
  have hwf2 : IsChain h (some a) ([] ++ (a, v) :: l) := hwf
  obtain ⟨hs1, hget, hs2, nd1, nd2, hc1, hc2, hdisj⟩ := hwf2.split
  obtain ⟨h1, hrem, hlen, hfreed, hall, hch⟩ := remove_chain_eq hwf2
  refine ⟨h1, _, _, hget, hrem, ?_, ?_, hch, ?_⟩
  · rintro rfl; rfl
  · intro q e
    obtain ⟨w, nx, hg⟩ := firstPtr_live hs2 (firstPtr_none_nil e) e
    have hqa : q ≠ a := fun e2 => hc2 (e2 ▸ firstPtr_mem (firstPtr_none_nil e) e)
    refine ⟨⟨w, nx, none⟩, ?_, rfl⟩
    rw [hall]
    simp [hqa, e, hg, lastPtr]
  · intro fuel hf
    refine ⟨size_chain fuel hwf hf, ?_⟩
    have hch2 : IsChain h1 (firstPtr l none) l := hch
    rw [size_chain fuel hch2 (by simp at hf; omega)]
    simp

/-- C10: inserting after a node of a well-formed chain and then removing the
inserted node gives back every node as it was, the same chain and size; `remove`
returns the node inserted after. -/
theorem insert_after_then_remove (h : Heap T) (head : Ptr) (l1 l2 : List (Nat × T)) (c : Nat)
    (v t : T) (hwf : IsChain h head (l1 ++ (c, v) :: l2)) :
    ∃ h1 h2,
      insert h (some c) t true = some (h.cells.length, h1) ∧
      remove h1 (some h.cells.length) = some (some c, h2) ∧
      (∀ x, h2.get x = h.get x) ∧
      IsChain h2 head (l1 ++ (c, v) :: l2) ∧
      h2.freed = h.freed ++ [h.cells.length] ∧
      ∀ fuel, (l1 ++ (c, v) :: l2).length < fuel →
        size fuel h head = some (l1 ++ (c, v) :: l2).length ∧
        size fuel h2 head = some (l1 ++ (c, v) :: l2).length := by
  obtain ⟨hs1, hget, hs2, nd1, nd2, hc1, hc2, hdisj⟩ := hwf.split
  have hcl := Heap.get_lt hget
  have hnx : firstPtr l2 none ≠ some c := fun e => hc2 (firstPtr_mem (firstPtr_none_nil e) e)
  have hq : ∀ q, firstPtr l2 none = some q → (h.get q).isSome := by
    intro q e
    obtain ⟨w, nx, hg⟩ := firstPtr_live hs2 (firstPtr_none_nil e) e
    simp [hg]
  obtain ⟨h1, hins, hlen, hfreed, hall⟩ := insert_after_eq h c t v _ _ hget hnx hq
  have hne : c ≠ h.cells.length := by omega
  have hnew : h1.get h.cells.length = some ⟨t, firstPtr l2 none, some c⟩ := by
    rw [hall]; simp
  have hnl : firstPtr l2 none ≠ some h.cells.length := by
    intro e
    obtain ⟨n, hn⟩ := Option.isSome_iff_exists.mp (hq _ e)
    have := Heap.get_lt hn
    omega
  have hcur : h1.get c = some ⟨v, some h.cells.length, lastPtr none l1⟩ := by
    rw [hall]; simp [hne]
  obtain ⟨h2, hrem, hlen2, hfreed2, hall2⟩ := remove_eq h1 h.cells.length t _ _ hnew
    (by simp [hne]) hnl (by intro p e; cases e; exact hnx)
    (by intro p e; cases e; simp [hcur])
    (by
      intro q e
      obtain ⟨n, hn⟩ := Option.isSome_iff_exists.mp (hq _ e)
      have h1q : q ≠ h.cells.length := fun e2 => hnl (e2 ▸ e)
      have h2q : q ≠ c := fun e2 => hnx (e2 ▸ e)
      rw [hall]; simp [h1q, h2q, e, hn])
  have hsame : ∀ x, h2.get x = h.get x := by
    intro x
    rw [hall2]
    by_cases h1x : x = h.cells.length
    · simp [h1x, Heap.get_length]
    · by_cases h2x : x = c
      · subst h2x
        simp [h1x, hcur, hget]
      · have h3x : ¬ c = x := fun e => h2x e.symm
        by_cases h4x : firstPtr l2 none = some x
        · obtain ⟨w, nx, hg⟩ := firstPtr_live hs2 (firstPtr_none_nil h4x) h4x
          rw [hall]
          simp [h1x, h2x, h3x, h4x, hg]
        · rw [hall]
          simp [h1x, h2x, h3x, h4x]
  have hch : IsChain h2 head (l1 ++ (c, v) :: l2) := IsSeg.frame hwf (fun a _ => hsame a)
  refine ⟨h1, h2, hins, hrem, hsame, hch, ?_, ?_⟩
  · rw [hfreed2, hfreed]
  · intro fuel hf
    exact ⟨size_chain fuel hwf hf, size_chain fuel hch hf⟩

theorem heap123_chain : IsChain heap123 (some 0) [(0, 1), (1, 2), (2, 3)] :=
  ⟨rfl, some 1, rfl, rfl, some 2, rfl, rfl, none, rfl, rfl⟩

/-- C4 on the chain `[1, 2, 3]`: inserting 99 before the node holding 2 gives
`[1, 99, 2, 3]`, of size 4. -/
theorem insert_before_position_witness :
    IsChain heap123 (some 0) ([(0, 1)] ++ (1, 2) :: [(2, 3)]) ∧
    ∃ h1, insert heap123 (some 1) 99 false = some (3, h1) ∧
      IsChain h1 (some 0) [(0, 1), (3, 99), (1, 2), (2, 3)] ∧
      values [(0, 1), (3, 99), (1, 2), (2, 3)] = [1, 99, 2, 3] ∧
      size 5 h1 (some 0) = some 4 := by
  refine ⟨heap123_chain, ?_⟩
  obtain ⟨h1, nx, pv, hi, _, _, _, _, _, _, _, hch, _, hsz⟩ :=
    insert_before_position heap123 (some 0) [(0, 1)] [(2, 3)] 1 2 99 heap123_chain
  exact ⟨h1, hi, hch, rfl, hsz 5 (by decide)⟩

/-- C5 on the chain `[1, 2, 3]`: inserting 99 after the node holding 2 gives
`[1, 2, 99, 3]`, of size 4. -/
theorem insert_after_position_witness :
    IsChain heap123 (some 0) ([(0, 1)] ++ (1, 2) :: [(2, 3)]) ∧
    ∃ h1, insert heap123 (some 1) 99 true = some (3, h1) ∧
      IsChain h1 (some 0) [(0, 1), (1, 2), (3, 99), (2, 3)] ∧
      values [(0, 1), (1, 2), (3, 99), (2, 3)] = [1, 2, 99, 3] ∧
      size 5 h1 (some 0) = some 4 := by
  refine ⟨heap123_chain, ?_⟩
  obtain ⟨h1, nx, pv, hi, _, _, _, _, _, _, _, hch, _, hsz⟩ :=
    insert_after_position heap123 (some 0) [(0, 1)] [(2, 3)] 1 2 99 heap123_chain
  exact ⟨h1, hi, hch, rfl, hsz 5 (by decide)⟩

/-- C7 on the chain `[1, 2, 3]`: removing the node holding 2 gives `[1, 3]`,
deletes address 1, and returns the node holding 1. -/
theorem remove_unlinks_node_witness :
    IsChain heap123 (some 0) ([(0, 1)] ++ (1, 2) :: [(2, 3)]) ∧
    ∃ h1, remove heap123 (some 1) = some (some 0, h1) ∧
      IsChain h1 (some 0) [(0, 1), (2, 3)] ∧ values [(0, 1), (2, 3)] = [1, 3] ∧
      h1.freed = [1] ∧ size 4 h1 (some 0) = some 2 := by
  refine ⟨heap123_chain, ?_⟩
  obtain ⟨h1, ret, nx, pv, hr, hg, _, _, _, hfr, _, hch, _, _, hret, hsz⟩ :=
    remove_unlinks_node heap123 (some 0) [(0, 1)] [(2, 3)] 1 2 heap123_chain
  have hg2 : heap123.get 1 = some ⟨2, some 2, some 0⟩ := rfl
  rw [hg2] at hg
  cases hg
  subst hret
  exact ⟨h1, hr, hch, rfl, hfr, hsz 4 (by decide)⟩

/-- C8 on the chain `[1, 2, 3]`: removing the last node returns its previous
neighbour, and removing null returns null. -/
theorem remove_returns_neighbour_witness :
    IsChain heap123 (some 0) ([(0, 1), (1, 2)] ++ (2, 3) :: []) ∧
    remove heap123 none = some (none, heap123) ∧
    ∃ h1, remove heap123 (some 2) = some (some 1, h1) := by
  refine ⟨heap123_chain, ?_⟩
  obtain ⟨hnull, h1, nx, pv, hg, hpv, hnx, hr, _⟩ :=
    remove_returns_neighbour heap123 (some 0) [(0, 1), (1, 2)] [] 2 3 heap123_chain
  subst hpv hnx
  exact ⟨hnull, h1, hr⟩

/-- C9 on the chain `[1, 2, 3]`: removing the head returns the node holding 2,
from which the chain has size 2. -/
theorem remove_head_returns_next_witness :
    IsChain heap123 (some 0) ((0, 1) :: [(1, 2), (2, 3)]) ∧
    ∃ h1, remove heap123 (some 0) = some (some 1, h1) ∧
      IsChain h1 (some 1) [(1, 2), (2, 3)] ∧ size 4 h1 (some 1) = some 2 := by
  refine ⟨heap123_chain, ?_⟩
  obtain ⟨h1, nx, pv, hg, hr, _, _, hch, hsz⟩ :=
    remove_head_returns_next heap123 0 1 [(1, 2), (2, 3)] heap123_chain
  have hg2 : heap123.get 0 = some ⟨1, some 1, none⟩ := rfl
  rw [hg2] at hg
  cases hg
  exact ⟨h1, hr, hch, (hsz 4 (by decide)).2⟩

/-- C10 on the chain `[1, 2, 3]`: inserting 99 after the node holding 2 and
removing it again restores the chain. -/
theorem insert_after_then_remove_witness :
    IsChain heap123 (some 0) ([(0, 1)] ++ (1, 2) :: [(2, 3)]) ∧
    ∃ h1 h2, insert heap123 (some 1) 99 true = some (3, h1) ∧
      remove h1 (some 3) = some (some 1, h2) ∧
      (∀ x, h2.get x = heap123.get x) ∧
      IsChain h2 (some 0) [(0, 1), (1, 2), (2, 3)] ∧ size 4 h2 (some 0) = some 3 := by
  refine ⟨heap123_chain, ?_⟩
  obtain ⟨h1, h2, hi, hr, hsame, hch, _, hsz⟩ :=
    insert_after_then_remove heap123 (some 0) [(0, 1)] [(2, 3)] 1 2 99 heap123_chain
  exact ⟨h1, h2, hi, hr, hsame, hch, (hsz 4 (by decide)).2⟩

theorem freshChain_nil (base : Nat) : freshChain base ([] : List T) = [] := rfl

theorem freshChain_cons (base : Nat) (v : T) (vs : List T) :
    freshChain base (v :: vs) = (base, v) :: freshChain (base + 1) vs := by
  simp [freshChain, List.range'_succ]

theorem values_freshChain (base : Nat) (vs : List T) : values (freshChain base vs) = vs := by
  induction vs generalizing base with
  | nil => rfl
  | cons v vs ih =>
    rw [freshChain_cons]
    show v :: values (freshChain (base + 1) vs) = v :: vs
    rw [ih]

theorem addrs_freshChain (base : Nat) (vs : List T) :
    addrs (freshChain base vs) = List.range' base vs.length := by
  induction vs generalizing base with
  | nil => rfl
  | cons v vs ih =>
    rw [freshChain_cons, addrs_cons, ih]
    simp [List.range'_succ]

theorem length_freshChain (base : Nat) (vs : List T) : (freshChain base vs).length = vs.length := by
  simp [freshChain]

theorem mem_addrs_freshChain {base : Nat} {vs : List T} {a : Nat}
    (ha : a ∈ addrs (freshChain base vs)) : base ≤ a ∧ a < base + vs.length := by
  rw [addrs_freshChain, List.mem_range'_1] at ha
  exact ha

theorem values_length (l : List (Nat × T)) : (values l).length = l.length := by
  simp [values]

/-- The loop of `copy`: the nodes after `s` are copied, one fresh node each,
behind the node `d`. -/
theorem copyLoop_seg (l : List (Nat × T)) :
    ∀ (h : Heap T) (s : Nat) (v : T) (prevS : Ptr) (d : Nat) (w : T) (pvd : Ptr) (fuel : Nat),
      IsSeg h prevS (some s) ((s, v) :: l) none → h.get d = some ⟨w, none, pvd⟩ →
      d ∉ addrs ((s, v) :: l) → l.length < fuel →
      ∃ h1, copyLoop fuel h (some s) (some d) = some h1 ∧
        h1.cells.length = h.cells.length + l.length ∧ h1.freed = h.freed ∧
        (∀ x, x < h.cells.length → x ≠ d → h1.get x = h.get x) ∧
        IsSeg h1 pvd (some d) ((d, w) :: freshChain h.cells.length (values l)) none := by
  induction l with
  | nil =>
    intro h s v prevS d w pvd fuel hs hd hnd hf
    obtain ⟨_, nx, hget, hnil⟩ := hs
    cases hnil
    cases fuel with
    | zero => simp at hf
    | succ f =>
      refine ⟨h, ?_, rfl, rfl, fun _ _ _ => rfl, rfl, none, hd, rfl⟩
      simp [copyLoop, hget]
  | cons y l ih =>
    intro h s v prevS d w pvd fuel hs hd hnd hf
    obtain ⟨s1, v1⟩ := y
    have hs0 := hs
    obtain ⟨_, nx, hget, hrest⟩ := hs
    have hrest0 := hrest
    obtain ⟨hnx, nx1, hget1, hrest1⟩ := hrest
    subst hnx
    cases fuel with
    | zero => simp at hf
    | succ f =>
      simp only [List.length_cons, Nat.add_lt_add_iff_right] at hf
      have hdl := Heap.get_lt hd
      obtain ⟨h2, hins, hlen2, hfreed2, hall2⟩ := insert_after_eq h d v1 w none pvd hd (by simp)
        (by intro q e; cases e)
      have hfr2 : ∀ x, x < h.cells.length → x ≠ d → h2.get x = h.get x := by
        intro x hx hxd
        have : x ≠ h.cells.length := by omega
        rw [hall2]; simp [this, hxd]
      have hsd : s ≠ d := fun e => hnd (by simp [addrs, e])
      have hget2 : h2.get s = some ⟨v, some s1, prevS⟩ := by
        rw [hfr2 s (Heap.get_lt hget) hsd]; exact hget
      have hseg2 : IsSeg h2 (some s) (some s1) ((s1, v1) :: l) none := by
        refine hrest0.frame (fun a ha => ?_)
        have hal := hrest0.lt_length a ha
        have had : a ≠ d := fun e => hnd (by rw [addrs_cons]; exact List.mem_cons_of_mem _ (e ▸ ha))
        exact hfr2 a hal had
      have hnew2 : h2.get h.cells.length = some ⟨v1, none, some d⟩ := by
        rw [hall2]; simp
      have hnd2 : h.cells.length ∉ addrs ((s1, v1) :: l) := by
        intro hmem
        have := hrest0.lt_length _ hmem
        omega
      obtain ⟨h1, hloop, hlen1, hfreed1, hfr1, hseg1⟩ :=
        ih h2 s1 v1 (some s) h.cells.length v1 (some d) f hseg2 hnew2 hnd2 hf
      refine ⟨h1, ?_, ?_, ?_, ?_, ?_⟩
      · simp [copyLoop, hget, hget1, hins, hget2, hloop]
      · rw [hlen1, hlen2]; simp only [List.length_cons]; omega
      · rw [hfreed1, hfreed2]
      · intro x hx hxd
        rw [hfr1 x (by omega) (by omega), hfr2 x hx hxd]
      · refine ⟨rfl, some h.cells.length, ?_, ?_⟩
        · rw [hfr1 d (by omega) (by omega), hall2]
          have : d ≠ h.cells.length := by omega
          simp [this]
        · have : values ((s1, v1) :: l) = v1 :: values l := rfl
          rw [this, freshChain_cons, ← hlen2]
          exact hseg1

/-- The effect of `copy` on a chain: a fresh chain with the same values, and the
old cells untouched. -/
theorem copy_chain_eq {h : Heap T} {prev pC : Ptr} {C : List (Nat × T)} (fuel : Nat)
    (hs : IsSeg h prev pC C none) (hf : C.length ≤ fuel) :
    ∃ h1, copy fuel h pC = some (firstPtr (freshChain h.cells.length (values C)) none, h1) ∧
      h1.cells.length = h.cells.length + C.length ∧ h1.freed = h.freed ∧
      (∀ x, x < h.cells.length → h1.get x = h.get x) ∧
      IsChain h1 (firstPtr (freshChain h.cells.length (values C)) none)
        (freshChain h.cells.length (values C)) := by
  cases C with
  | nil =>
    cases hs
    exact ⟨h, rfl, rfl, rfl, fun _ _ => rfl, rfl⟩
  | cons y l =>
    obtain ⟨s, v⟩ := y
    have hs0 := hs
    obtain ⟨hp, nx, hget, hrest⟩ := hs
    subst hp
    have hseg0 : IsSeg (h.alloc v).2 prev (some s) ((s, v) :: l) none := by
      refine hs0.frame (fun a ha => ?_)
      have := hs0.lt_length a ha
      rw [Heap.get_alloc]
      simp [Nat.ne_of_lt this]
    have hd0 : (h.alloc v).2.get h.cells.length = some ⟨v, none, none⟩ := by
      rw [Heap.get_alloc]; simp
    have hnd0 : h.cells.length ∉ addrs ((s, v) :: l) := by
      intro hmem
      have := hs0.lt_length _ hmem
      omega
    obtain ⟨h1, hloop, hlen1, hfreed1, hfr1, hseg1⟩ :=
      copyLoop_seg l (h.alloc v).2 s v prev h.cells.length v none fuel hseg0 hd0 hnd0
        (by simpa using hf)
    have hv : values ((s, v) :: l) = v :: values l := rfl
    rw [hv, freshChain_cons]
    refine ⟨h1, ?_, ?_, ?_, ?_, ?_⟩
    · simp [copy, hget, hloop, firstPtr]
    · rw [hlen1]; simp only [Heap.alloc_length, List.length_cons]; omega
    · rw [hfreed1]; rfl
    · intro x hx
      rw [hfr1 x (by simp only [Heap.alloc_length]; omega) (by omega), Heap.get_alloc]
      simp [Nat.ne_of_lt hx]
    · simp only [Heap.alloc_length] at hseg1
      exact hseg1

/-- C2: `copy` of a well-formed chain returns the head of a chain holding the
same values in the same order, hence of the same size; `copy(nullptr)` is null. -/
theorem copy_values_of_source (h : Heap T) (pC : Ptr) (C : List (Nat × T)) (fuel : Nat)
    (hwf : IsChain h pC C) (hf : C.length < fuel) :
    copy fuel h none = some (none, h) ∧
    ∃ h1 pD K, copy fuel h pC = some (pD, h1) ∧ IsChain h1 pD K ∧
      values K = values C ∧ K.length = C.length ∧
      size fuel h pC = some C.length ∧ size fuel h1 pD = some C.length ∧
      (pC = none → pD = none) := by
  obtain ⟨h1, hcopy, hlen, hfreed, hfr, hch⟩ := copy_chain_eq fuel hwf (Nat.le_of_lt hf)
  have hKlen : (freshChain h.cells.length (values C)).length = C.length := by
    rw [length_freshChain, values_length]
  refine ⟨rfl, h1, _, _, hcopy, hch, values_freshChain _ _, hKlen, size_chain fuel hwf hf, ?_, ?_⟩
  · rw [size_chain fuel hch (by rw [hKlen]; exact hf), hKlen]
  · rintro rfl
    cases C with
    | nil => rfl
    | cons y l => obtain ⟨a, v⟩ := y; exact absurd hwf.1 (by simp)

/-- C2 on the chain `[1, 2, 3]`: the copy is a chain of size 3 with the values
`[1, 2, 3]`. -/
theorem copy_values_of_source_witness :
    IsChain heap123 (some 0) [(0, 1), (1, 2), (2, 3)] ∧
    ∃ h1 pD K, copy 4 heap123 (some 0) = some (pD, h1) ∧ IsChain h1 pD K ∧
      values K = [1, 2, 3] ∧ size 4 h1 pD = some 3 := by
  refine ⟨heap123_chain, ?_⟩
  obtain ⟨_, h1, pD, K, hc, hch, hv, _, _, hsz, _⟩ :=
    copy_values_of_source heap123 (some 0) [(0, 1), (1, 2), (2, 3)] 4 heap123_chain (by decide)
  exact ⟨h1, pD, K, hc, hch, hv, hsz⟩

theorem overwrite_nil_left (vs : List T) : overwrite ([] : List (Nat × T)) vs = [] := by
  cases vs <;> rfl

theorem overwrite_nil_right (l : List (Nat × T)) : overwrite l ([] : List T) = [] := by
  cases l with
  | nil => rfl
  | cons x l => obtain ⟨a, v⟩ := x; rfl

theorem addrs_overwrite (l : List (Nat × T)) (vs : List T) :
    addrs (overwrite l vs) = (addrs l).take vs.length := by
  induction l generalizing vs with
  | nil => rw [overwrite_nil_left]; simp [addrs]
  | cons x l ih =>
    obtain ⟨a, v⟩ := x
    cases vs with
    | nil => rfl
    | cons w vs =>
      show a :: addrs (overwrite l vs) = _
      rw [ih]; rfl

theorem values_overwrite (l : List (Nat × T)) (vs : List T) :
    values (overwrite l vs) = vs.take l.length := by
  induction l generalizing vs with
  | nil => rw [overwrite_nil_left]; simp [values]
  | cons x l ih =>
    obtain ⟨a, v⟩ := x
    cases vs with
    | nil => rfl
    | cons w vs =>
      show w :: values (overwrite l vs) = _
      rw [ih]; rfl

theorem mem_addrs_overwrite {l : List (Nat × T)} {vs : List T} {a : Nat}
    (ha : a ∈ addrs (overwrite l vs)) : a ∈ addrs l := by
  rw [addrs_overwrite] at ha
  exact List.mem_of_mem_take ha

/-- The first loop of `assign` on disjoint chains: the values of the source are
written into the leading destination nodes; nothing else changes. -/
theorem assignFill_seg (D : List (Nat × T)) :
    ∀ (S : List (Nat × T)) (h : Heap T) (prevD pD prevS pS dp : Ptr) (fuel : Nat),
      IsSeg h prevD pD D none → IsSeg h prevS pS S none →
      (∀ a ∈ addrs D, a ∉ addrs S) → min D.length S.length < fuel →
      ∃ h1, assignFill fuel h pS pD dp =
          some (h1, firstPtr (S.drop D.length) none, firstPtr (D.drop S.length) none,
            lastPtr dp (overwrite D (values S))) ∧
        h1.cells.length = h.cells.length ∧ h1.freed = h.freed ∧
        (∀ x, x ∉ addrs (overwrite D (values S)) → h1.get x = h.get x) ∧
        IsSeg h1 prevD pD (overwrite D (values S)) (firstPtr (D.drop S.length) none) := by
  induction D with
  | nil =>
    intro S h prevD pD prevS pS dp fuel hD hS hdisj hf
    cases hD
    cases fuel with
    | zero => simp at hf
    | succ f =>
      refine ⟨h, ?_, rfl, rfl, fun _ _ => rfl, ?_⟩
      · rw [hS.start]
        simp [assignFill, overwrite_nil_left, lastPtr, firstPtr]
      · rw [overwrite_nil_left]; simp [IsSeg, firstPtr]
  | cons y D ih =>
    intro S h prevD pD prevS pS dp fuel hD hS hdisj hf
    obtain ⟨a, v⟩ := y
    have hnd := IsSeg.nodup hD
    have hD0 := hD
    obtain ⟨hpD, nxD, hgetD, hrestD⟩ := hD
    subst hpD
    cases S with
    | nil =>
      cases hS
      cases fuel with
      | zero => simp at hf
      | succ f =>
        refine ⟨h, ?_, rfl, rfl, fun _ _ => rfl, ?_⟩
        · simp [assignFill, values, overwrite, lastPtr, firstPtr]
        · simp [values, overwrite, IsSeg, firstPtr]
    | cons z S =>
      obtain ⟨b, w⟩ := z
      have hS0 := hS
      obtain ⟨hpS, nxS, hgetS, hrestS⟩ := hS
      subst hpS
      cases fuel with
      | zero => simp at hf
      | succ f =>
        simp only [List.length_cons, Nat.add_min_add_right, Nat.add_lt_add_iff_right] at hf
        have hab : a ≠ b := fun e => hdisj a (by simp [addrs]) (by simp [addrs, e])
        have hal := Heap.get_lt hgetD
        rw [addrs_cons, List.nodup_cons] at hnd
        have hfr2 : ∀ x, x ≠ a → (h.write a ⟨w, nxD, prevD⟩).get x = h.get x := by
          intro x hx
          rw [Heap.get_write]; simp [hx]
        have hD2 : IsSeg (h.write a ⟨w, nxD, prevD⟩) (some a) nxD D none :=
          hrestD.frame (fun x hx => hfr2 x (fun e => hnd.1 (e ▸ hx)))
        have hS2 : IsSeg (h.write a ⟨w, nxD, prevD⟩) (some b) nxS S none :=
          hrestS.frame (fun x hx => hfr2 x (fun e => hdisj a (by simp [addrs])
            (by rw [addrs_cons]; exact List.mem_cons_of_mem _ (e ▸ hx))))
        have hdisj2 : ∀ x ∈ addrs D, x ∉ addrs S := fun x hx hxs =>
          hdisj x (by rw [addrs_cons]; exact List.mem_cons_of_mem _ hx)
            (by rw [addrs_cons]; exact List.mem_cons_of_mem _ hxs)
        obtain ⟨h1, hfill, hlen1, hfreed1, hfr1, hseg1⟩ :=
          ih S (h.write a ⟨w, nxD, prevD⟩) (some a) nxD (some b) nxS (some a) f hD2 hS2 hdisj2 hf
        have hov : overwrite ((a, v) :: D) (values ((b, w) :: S)) = (a, w) :: overwrite D (values S) :=
          rfl
        have hna : a ∉ addrs (overwrite D (values S)) := fun hm => hnd.1 (mem_addrs_overwrite hm)
        rw [hov]
        refine ⟨h1, ?_, ?_, ?_, ?_, ?_⟩
        · have e1 : (h.write a ⟨w, nxD, prevD⟩).get a = some ⟨w, nxD, prevD⟩ := by
            rw [Heap.get_write]; simp [hal]
          have e2 : (h.write a ⟨w, nxD, prevD⟩).get b = some ⟨w, nxS, prevS⟩ := by
            rw [hfr2 b (fun e => hab e.symm)]; exact hgetS
          simp [assignFill, hgetS, Heap.setData, hgetD, e1, e2, hfill, lastPtr_cons]
        · rw [hlen1]; simp
        · rw [hfreed1]; rfl
        · intro x hx
          rw [addrs_cons, List.mem_cons, not_or] at hx
          rw [hfr1 x hx.2, hfr2 x hx.1]
        · refine ⟨rfl, nxD, ?_, hseg1⟩
          rw [hfr1 a hna, Heap.get_write]; simp [hal]

/-- The function `clear` on a run of nodes ending at null: every node is deleted
once, front to back, and the reference ends null. -/
theorem clear_seg (l : List (Nat × T)) :
    ∀ (h : Heap T) (prev p : Ptr) (fuel : Nat), IsSeg h prev p l none → l.length < fuel →
      ∃ h1, clear fuel h p = some (none, h1) ∧
        h1.cells.length = h.cells.length ∧ h1.freed = h.freed ++ addrs l ∧
        (∀ x, h1.get x = if x ∈ addrs l then none else h.get x) := by
  induction l with
  | nil =>
    intro h prev p fuel hs hf
    cases hs
    cases fuel with
    | zero => simp at hf
    | succ f => exact ⟨h, rfl, rfl, by simp [addrs], by simp [addrs]⟩
  | cons y l ih =>
    intro h prev p fuel hs hf
    obtain ⟨a, v⟩ := y
    have hnd := IsSeg.nodup hs
    obtain ⟨hp, nx, hget, hrest⟩ := hs
    subst hp
    rw [addrs_cons, List.nodup_cons] at hnd
    cases fuel with
    | zero => simp at hf
    | succ f =>
      simp only [List.length_cons, Nat.add_lt_add_iff_right] at hf
      have hrest2 : IsSeg (h.erase a) (some a) nx l none := by
        refine hrest.frame (fun x hx => ?_)
        have : x ≠ a := fun e => hnd.1 (e ▸ hx)
        rw [Heap.get_erase]; simp [this]
      obtain ⟨h1, hclear, hlen1, hfreed1, hall1⟩ := ih (h.erase a) (some a) nx f hrest2 hf
      refine ⟨h1, ?_, ?_, ?_, ?_⟩
      · simp [clear, hget, Heap.free, hclear]
      · rw [hlen1]; simp
      · rw [hfreed1]; simp [addrs_cons]
      · intro x
        rw [hall1, Heap.get_erase, addrs_cons]
        by_cases h1x : x ∈ addrs l
        · simp [h1x]
        · by_cases h2x : x = a
          · simp [h2x]
          · simp [h1x, h2x]

/-- The second loop of `assign`: one fresh node per remaining source node is
linked behind `pDesCur`, and a null `pDestination` is set to the first of them. -/
theorem assignGrow_seg (S : List (Nat × T)) :
    ∀ (h : Heap T) (prevS pS pDest pDesCur : Ptr) (fuel : Nat),
      IsSeg h prevS pS S none →
      (∀ d, pDesCur = some d → d ∉ addrs S ∧ ∃ w pvd, h.get d = some ⟨w, none, pvd⟩) →
      S.length < fuel →
      ∃ h1, assignGrow fuel h pDest pS pDesCur =
          some ((match pDest with
            | none => firstPtr (freshChain h.cells.length (values S)) none
            | some p => some p), h1) ∧
        h1.cells.length = h.cells.length + S.length ∧ h1.freed = h.freed ∧
        (∀ x, x < h.cells.length → pDesCur ≠ some x → h1.get x = h.get x) ∧
        (∀ d, pDesCur = some d → h1.get d = (h.get d).map (fun n =>
          { n with pNext := firstPtr (freshChain h.cells.length (values S)) none })) ∧
        IsSeg h1 pDesCur (firstPtr (freshChain h.cells.length (values S)) none)
          (freshChain h.cells.length (values S)) none := by
  induction S with
  | nil =>
    intro h prevS pS pDest pDesCur fuel hs htail hf
    cases hs
    cases fuel with
    | zero => simp at hf
    | succ f =>
      refine ⟨h, ?_, rfl, rfl, fun _ _ _ => rfl, ?_, rfl⟩
      · cases pDest <;> rfl
      · intro d hd
        obtain ⟨_, w, pvd, hg⟩ := htail d hd
        simp [hg, values, freshChain_nil, firstPtr]
  | cons y S ih =>
    intro h prevS pS pDest pDesCur fuel hs htail hf
    obtain ⟨s, v⟩ := y
    have hs0 := hs
    obtain ⟨hp, nxS, hgetS, hrestS⟩ := hs
    subst hp
    cases fuel with
    | zero => simp at hf
    | succ f =>
      simp only [List.length_cons, Nat.add_lt_add_iff_right] at hf
      have hsl := Heap.get_lt hgetS
      have hv : values ((s, v) :: S) = v :: values S := rfl
      rw [hv, freshChain_cons]
      -- the heap after the insertion
      have hins : ∃ h2, insert h pDesCur v true = some (h.cells.length, h2) ∧
          h2.cells.length = h.cells.length + 1 ∧ h2.freed = h.freed ∧
          h2.get h.cells.length = some ⟨v, none, pDesCur⟩ ∧
          (∀ x, x < h.cells.length → pDesCur ≠ some x → h2.get x = h.get x) ∧
          (∀ d, pDesCur = some d → h2.get d = (h.get d).map (fun n =>
            { n with pNext := some h.cells.length })) := by
        cases pDesCur with
        | none =>
          refine ⟨(h.alloc v).2, insert_null_eq h v true, by simp, rfl, ?_, ?_, ?_⟩
          · rw [Heap.get_alloc]; simp
          · intro x hx _
            rw [Heap.get_alloc]; simp [Nat.ne_of_lt hx]
          · intro d hd; cases hd
        | some d =>
          obtain ⟨_, w, pvd, hgd⟩ := htail d rfl
          have hdl := Heap.get_lt hgd
          obtain ⟨h2, hi, hl, hfz, hall⟩ := insert_after_eq h d v w none pvd hgd (by simp)
            (by intro q e; cases e)
          refine ⟨h2, hi, hl, hfz, ?_, ?_, ?_⟩
          · rw [hall]; simp
          · intro x hx hxd
            have h1x : x ≠ d := fun e => hxd (by rw [e])
            rw [hall]; simp [Nat.ne_of_lt hx, h1x]
          · intro d2 hd2
            cases hd2
            rw [hall]; simp [Nat.ne_of_lt hdl, hgd]
      obtain ⟨h2, hi, hlen2, hfreed2, hnew2, hfr2, htl2⟩ := hins
      have hsd : pDesCur ≠ some s := fun e => (htail s e).1 (by simp [addrs])
      have hgetS2 : h2.get s = some ⟨v, nxS, prevS⟩ := by
        rw [hfr2 s hsl hsd]; exact hgetS
      have hrestS2 : IsSeg h2 (some s) nxS S none := by
        refine hrestS.frame (fun x hx => hfr2 x (hrestS.lt_length x hx) (fun e => ?_))
        exact (htail x e).1 (by rw [addrs_cons]; exact List.mem_cons_of_mem _ hx)
      have htail2 : ∀ d, some h.cells.length = some d →
          d ∉ addrs S ∧ ∃ w pvd, h2.get d = some ⟨w, none, pvd⟩ := by
        intro d hd
        cases hd
        refine ⟨fun hm => ?_, v, pDesCur, hnew2⟩
        have := hrestS.lt_length _ hm
        omega
      obtain ⟨h1, hgrow, hlen1, hfreed1, hfr1, htl1, hseg1⟩ :=
        ih h2 (some s) nxS (match pDest with | none => some h.cells.length | some p => some p)
          (some h.cells.length) f hrestS2 htail2 hf
      rw [hlen2] at hgrow hseg1 htl1
      refine ⟨h1, ?_, ?_, ?_, ?_, ?_, ?_⟩
      · simp only [assignGrow, hgetS, Option.bind_eq_bind, Option.some_bind, hi, hgetS2]
        cases pDest <;> exact hgrow
      · rw [hlen1, hlen2]; simp only [List.length_cons]; omega
      · rw [hfreed1, hfreed2]
      · intro x hx hxd
        rw [hfr1 x (by omega) (by simp; omega), hfr2 x hx hxd]
      · intro d hd
        obtain ⟨_, w, pvd, hgd⟩ := htail d hd
        have hdl := Heap.get_lt hgd
        rw [hfr1 d (by omega) (by simp; omega), htl2 d hd]
        rfl
      · refine ⟨rfl, _, ?_, hseg1⟩
        rw [htl1 _ rfl, hnew2]
        rfl

theorem firstPtr_append (l1 l2 : List (Nat × T)) (q : Ptr) :
    firstPtr (l1 ++ l2) q = firstPtr l1 (firstPtr l2 q) := by
  cases l1 with
  | nil => rfl
  | cons x l1 => rfl

theorem addrs_take (l : List (Nat × T)) (k : Nat) : addrs (l.take k) = (addrs l).take k := by
  simp [addrs, List.map_take]

theorem addrs_drop (l : List (Nat × T)) (k : Nat) : addrs (l.drop k) = (addrs l).drop k := by
  simp [addrs, List.map_drop]

theorem values_drop (l : List (Nat × T)) (k : Nat) : values (l.drop k) = (values l).drop k := by
  simp [values, List.map_drop]

/-- The nodes from index `k` on of a run ending at null form such a run. -/
theorem IsSeg.drop {h : Heap T} {l : List (Nat × T)} {prev p : Ptr} (hs : IsSeg h prev p l none)
    (k : Nat) :
    IsSeg h (lastPtr prev (l.take k)) (firstPtr (l.drop k) none) (l.drop k) none := by
  have hs2 : IsSeg h prev p (l.take k ++ l.drop k) none := by
    rw [List.take_append_drop]; exact hs
  obtain ⟨m, _, h2⟩ := IsSeg.append_iff.mp hs2
  rw [← h2.start]
  exact h2

theorem not_mem_take_of_mem_drop {l : List Nat} (hnd : l.Nodup) {k : Nat} {a : Nat}
    (ha : a ∈ l.drop k) : a ∉ l.take k := by
  rw [← List.take_append_drop k l, List.nodup_append] at hnd
  exact fun hm => hnd.2.2 hm ha

theorem values_assignResult (base : Nat) (D S : List (Nat × T)) :
    values (assignResult base D S) = values S := by
  unfold assignResult
  have : values (overwrite D (values S) ++ freshChain base (values (S.drop D.length))) =
      values (overwrite D (values S)) ++ values (freshChain base (values (S.drop D.length))) := by
    simp [values]
  rw [this, values_overwrite, values_freshChain, values_drop, List.take_append_drop]

theorem firstPtr_nil (q : Ptr) : firstPtr ([] : List (Nat × T)) q = q := rfl

theorem firstPtr_of_ne_nil {l : List (Nat × T)} (hne : l ≠ []) (q q2 : Ptr) :
    firstPtr l q = firstPtr l q2 := by
  cases l with
  | nil => exact absurd rfl hne
  | cons x r => rfl

theorem firstPtr_drop_some {l : List (Nat × T)} {k : Nat} (hk : k < l.length) (q : Ptr) :
    ∃ a, firstPtr (l.drop k) q = some a := by
  cases hd : l.drop k with
  | nil =>
    have := congrArg List.length hd
    simp at this
    omega
  | cons x r => exact ⟨x.1, rfl⟩

/-- The effect of `assign` on a well-formed destination `D` and a disjoint source
`S`: the destination becomes `assignResult`, the nodes of `D` beyond the length
of `S` are deleted in order, and cells outside `D` keep their contents. -/
theorem assign_chain_eq {h : Heap T} {pD prevS pS : Ptr} {D S : List (Nat × T)} (fuel : Nat)
    (hD : IsChain h pD D) (hS : IsSeg h prevS pS S none)
    (hdisj : ∀ a ∈ addrs D, a ∉ addrs S) (hfD : D.length < fuel) (hfS : S.length < fuel) :
    ∃ h1, assign fuel h pD pS = some (firstPtr (assignResult h.cells.length D S) none, h1) ∧
      IsChain h1 (firstPtr (assignResult h.cells.length D S) none)
        (assignResult h.cells.length D S) ∧
      h1.cells.length = h.cells.length + (S.length - D.length) ∧
      h1.freed = h.freed ++ addrs (D.drop S.length) ∧
      (∀ x, x < h.cells.length → x ∉ addrs D → h1.get x = h.get x) := by
  have hndD := IsSeg.nodup hD
  obtain ⟨h1, hfill, hlen1, hfreed1, hfr1, hseg1⟩ :=
    assignFill_seg D S h none pD prevS pS none fuel hD hS hdisj
      (by have := Nat.min_le_left D.length S.length; omega)
  have hovD : ∀ a, a ∈ addrs (overwrite D (values S)) → a ∈ addrs D := fun a ha =>
    mem_addrs_overwrite ha
  have hndov : (addrs (overwrite D (values S))).Nodup := by
    rw [addrs_overwrite]
    exact hndD.sublist (List.take_sublist _ _)
  have hltov := hseg1.lt_length
  have hstart := hseg1.start
  unfold assign
  rw [hfill]
  simp only [Option.bind_eq_bind, Option.some_bind]
  rcases Nat.lt_trichotomy D.length S.length with hlt | heq | hgt
  · -- the source is longer
    obtain ⟨s, hs⟩ := firstPtr_drop_some hlt none
    have hDd : D.drop S.length = [] := List.drop_eq_nil_of_le (Nat.le_of_lt hlt)
    rw [hDd, firstPtr_nil] at hseg1 hstart
    rw [hDd, firstPtr_nil, hs]
    simp only []
    have hSd : IsSeg h1 (lastPtr prevS (S.take D.length)) (some s) (S.drop D.length) none := by
      rw [← hs]
      refine (hS.drop D.length).frame (fun a ha => hfr1 a (fun hm => ?_))
      rw [addrs_drop] at ha
      exact hdisj a (hovD a hm) (List.mem_of_mem_drop ha)
    have htail : ∀ d, lastPtr none (overwrite D (values S)) = some d →
        d ∉ addrs (S.drop D.length) ∧ ∃ w pvd, h1.get d = some ⟨w, none, pvd⟩ := by
      intro d hd
      have hne := lastPtr_none_nil hd
      refine ⟨fun hm => ?_, lastPtr_live hseg1 hne hd⟩
      rw [addrs_drop] at hm
      exact hdisj d (hovD d (lastPtr_mem hne hd)) (List.mem_of_mem_drop hm)
    obtain ⟨h2, hgrow, hlen2, hfreed2, hfr2, htl2, hseg2⟩ :=
      assignGrow_seg (S.drop D.length) h1 _ (some s) pD _ fuel hSd htail
        (by simp only [List.length_drop]; omega)
    rw [hlen1] at hgrow hseg2 htl2
    have hpre := hseg1.relink_last
      (firstPtr (freshChain h.cells.length (values (S.drop D.length))) none) hndov
      (g := h2) (fun a ha => by
        by_cases hl : lastPtr none (overwrite D (values S)) = some a
        · rw [htl2 a hl]; simp [hl]
        · rw [hfr2 a (hltov a ha) hl]; simp [hl])
    have hch : IsChain h2 (firstPtr (assignResult h.cells.length D S) none)
        (assignResult h.cells.length D S) := by
      unfold assignResult
      rw [firstPtr_append]
      exact IsSeg.append_iff.mpr ⟨_, hpre, hseg2⟩
    refine ⟨h2, ?_, hch, ?_, ?_, ?_⟩
    · rw [hgrow]
      congr 2
      unfold assignResult
      rw [firstPtr_append, hstart]
      cases overwrite D (values S) with
      | nil => rfl
      | cons x r => rfl
    · rw [hlen2, hlen1]; simp only [List.length_drop]
    · rw [hfreed2, hfreed1]; simp [addrs]
    · intro x hx hxD
      have hxl : lastPtr none (overwrite D (values S)) ≠ some x := fun e =>
        hxD (hovD x (lastPtr_mem (lastPtr_none_nil e) e))
      rw [hfr2 x (by omega) hxl, hfr1 x (fun hm => hxD (hovD x hm))]
  · -- equal lengths
    have hDd : D.drop S.length = [] := List.drop_eq_nil_of_le (Nat.le_of_eq heq)
    have hSd : S.drop D.length = [] := List.drop_eq_nil_of_le (Nat.le_of_eq heq.symm)
    have hres : assignResult h.cells.length D S = overwrite D (values S) := by
      unfold assignResult
      rw [hSd]; simp [values, freshChain_nil]
    rw [hDd, firstPtr_nil] at hseg1 hstart
    rw [hDd, hSd, hres, firstPtr_nil]
    simp only []
    refine ⟨h1, ?_, ?_, ?_, ?_, ?_⟩
    · rw [hstart]; rfl
    · rw [← hstart]; exact hseg1
    · rw [hlen1]; omega
    · rw [hfreed1]; simp [addrs]
    · intro x _ hxD
      exact hfr1 x (fun hm => hxD (hovD x hm))
  · -- the destination is longer
    obtain ⟨d, hd⟩ := firstPtr_drop_some hgt none
    have hSd : S.drop D.length = [] := List.drop_eq_nil_of_le (Nat.le_of_lt hgt)
    have hres : assignResult h.cells.length D S = overwrite D (values S) := by
      unfold assignResult
      rw [hSd]; simp [values, freshChain_nil]
    rw [hd] at hseg1 hstart
    rw [hSd, hres, firstPtr_nil, hd]
    simp only []
    have hdrop_ov : ∀ a, a ∈ addrs (D.drop S.length) → a ∉ addrs (overwrite D (values S)) := by
      intro a ha
      rw [addrs_drop] at ha
      rw [addrs_overwrite, values_length]
      exact not_mem_take_of_mem_drop hndD ha
    -- cutting the link behind the last reused node
    have hcut : ∃ h2, (lastPtr none (overwrite D (values S)) = none →
          firstPtr (overwrite D (values S)) none = none ∧ h2 = h1) ∧
        (∀ p, lastPtr none (overwrite D (values S)) = some p →
          h1.setNext p none = some h2 ∧ firstPtr (overwrite D (values S)) none = pD) ∧
        h2.cells.length = h1.cells.length ∧ h2.freed = h1.freed ∧
        ∀ x, h2.get x = if lastPtr none (overwrite D (values S)) = some x then
          (h1.get x).map (fun n => { n with pNext := none }) else h1.get x := by
      cases hl : lastPtr none (overwrite D (values S)) with
      | none =>
        have hov : overwrite D (values S) = [] := by
          rcases List.eq_nil_or_concat (overwrite D (values S)) with e | ⟨l, x, e⟩
          · exact e
          · rw [e, List.concat_eq_append] at hl
            obtain ⟨a, v⟩ := x
            rw [lastPtr_concat] at hl
            cases hl
        refine ⟨h1, fun _ => ⟨?_, rfl⟩, fun p e => (by cases e), rfl, rfl, fun x => (by simp)⟩
        rw [hov]; rfl
      | some p =>
        have hne := lastPtr_none_nil hl
        obtain ⟨w, pv, hgp⟩ := lastPtr_live hseg1 hne hl
        refine ⟨h1.write p ⟨w, none, pv⟩, fun e => (by cases e), ?_, (by simp), rfl, ?_⟩
        · intro p2 e
          cases e
          refine ⟨Heap.setNext_eq hgp none, ?_⟩
          rw [hstart]
          exact firstPtr_of_ne_nil hne _ _
        · intro x
          rw [Heap.get_write]
          by_cases hx : x = p
          · subst hx; simp [Heap.get_lt hgp, hgp]
          · have hx2 : ¬ p = x := fun e => hx e.symm
            simp [hx, hx2]
    obtain ⟨h2, hcutN, hcutS, hlen2, hfreed2, hall2⟩ := hcut
    have hrest : IsSeg h2 (lastPtr none (D.take S.length)) (some d) (D.drop S.length) none := by
      rw [← hd]
      refine (IsSeg.drop hD S.length).frame (fun a ha => ?_)
      have hna := hdrop_ov a ha
      have hnl : ¬ lastPtr none (overwrite D (values S)) = some a := fun e =>
        hna (lastPtr_mem (lastPtr_none_nil e) e)
      rw [hall2, hfr1 a hna]; simp [hnl]
    obtain ⟨h3, hclear, hlen3, hfreed3, hall3⟩ :=
      clear_seg (D.drop S.length) h2 _ (some d) fuel hrest (by simp only [List.length_drop]; omega)
    have hfinal := hseg1.relink_last none hndov (g := h3) (fun a ha => by
      have hna : a ∉ addrs (D.drop S.length) := fun hm => hdrop_ov a hm ha
      rw [hall3, hall2]; simp [hna])
    refine ⟨h3, ?_, hfinal, ?_, ?_, ?_⟩
    · cases hl : lastPtr none (overwrite D (values S)) with
      | none =>
        obtain ⟨e1, e2⟩ := hcutN hl
        subst e2
        simp [hclear, e1]
      | some p =>
        obtain ⟨e1, e2⟩ := hcutS p hl
        simp [hclear, e1, e2]
    · rw [hlen3, hlen2, hlen1]; omega
    · rw [hfreed3, hfreed2, hfreed1]
    · intro x _ hxD
      have hx1 : x ∉ addrs (D.drop S.length) := fun hm => by
        rw [addrs_drop] at hm
        exact hxD (List.mem_of_mem_drop hm)
      have hx2 : x ∉ addrs (overwrite D (values S)) := fun hm => hxD (hovD x hm)
      have hx3 : ¬ lastPtr none (overwrite D (values S)) = some x := fun e =>
        hx2 (lastPtr_mem (lastPtr_none_nil e) e)
      rw [hall3, hall2, hfr1 x hx2]; simp [hx1, hx3]

theorem heapShortDest_dest : IsChain heapShortDest (some 0) [(0, 1)] :=
  ⟨rfl, none, rfl, rfl⟩

theorem heapShortDest_source : IsChain heapShortDest (some 1) [(1, 5), (2, 6), (3, 7)] :=
  ⟨rfl, some 2, rfl, rfl, some 3, rfl, rfl, none, rfl, rfl⟩

theorem length_overwrite (l : List (Nat × T)) (vs : List T) :
    (overwrite l vs).length = min l.length vs.length := by
  have := congrArg List.length (values_overwrite l vs)
  rw [values_length] at this
  rw [this, List.length_take, Nat.min_comm]

theorem length_assignResult (base : Nat) (D S : List (Nat × T)) :
    (assignResult base D S).length = S.length := by
  have := congrArg List.length (values_assignResult base D S)
  rwa [values_length, values_length] at this

/-- C1: `assign(D, S)` on a well-formed destination and a disjoint well-formed
source leaves a destination chain of the length of `S` holding the values of
`S` in order; an empty destination ends up pointing at the first new node, and an
empty source leaves a null destination. -/
theorem assign_values_of_source (h : Heap T) (pD pS : Ptr) (D S : List (Nat × T)) (fuel : Nat)
    (hD : IsChain h pD D) (hS : IsChain h pS S) (hdisj : ∀ a ∈ addrs D, a ∉ addrs S)
    (hfD : D.length < fuel) (hfS : S.length < fuel) :
    ∃ h1 pD1 L, assign fuel h pD pS = some (pD1, h1) ∧ IsChain h1 pD1 L ∧
      L.length = S.length ∧ values L = values S ∧
      size fuel h pS = some S.length ∧ size fuel h1 pD1 = some S.length ∧
      (D = [] → S ≠ [] → pD1 = some h.cells.length ∧ h.get h.cells.length = none ∧
        firstPtr L none = some h.cells.length) ∧
      (S = [] → pD1 = none) := by
  obtain ⟨h1, hassign, hch, hlen, hfreed, hfr⟩ := assign_chain_eq fuel hD hS hdisj hfD hfS
  have hL := length_assignResult h.cells.length D S
  refine ⟨h1, _, _, hassign, hch, hL, values_assignResult _ D S, size_chain fuel hS hfS, ?_, ?_, ?_⟩
  · rw [size_chain fuel hch (by rw [hL]; exact hfS), hL]
  · rintro rfl hne
    have : firstPtr (assignResult h.cells.length [] S) none = some h.cells.length := by
      cases S with
      | nil => exact absurd rfl hne
      | cons y S =>
        unfold assignResult
        rw [overwrite_nil_left]
        show firstPtr (freshChain h.cells.length (values (y :: S))) none = _
        have : values (y :: S) = y.2 :: values S := rfl
        rw [this, freshChain_cons]
        rfl
    exact ⟨this, Heap.get_length h, this⟩
  · rintro rfl
    unfold assignResult
    simp [values, overwrite_nil_right, freshChain_nil, firstPtr]

/-- C1 on the destination `[1]` and the source `[5, 6, 7]`: the destination
becomes a chain of size 3 holding `[5, 6, 7]`. -/
theorem assign_values_of_source_witness :
    IsChain heapShortDest (some 0) [(0, 1)] ∧
    IsChain heapShortDest (some 1) [(1, 5), (2, 6), (3, 7)] ∧
    ∃ h1 pD1 L, assign 4 heapShortDest (some 0) (some 1) = some (pD1, h1) ∧
      IsChain h1 pD1 L ∧ values L = [5, 6, 7] ∧ size 4 h1 pD1 = some 3 := by
  refine ⟨heapShortDest_dest, heapShortDest_source, ?_⟩
  obtain ⟨h1, pD1, L, ha, hch, _, hv, _, hsz, _, _⟩ :=
    assign_values_of_source heapShortDest (some 0) (some 1) [(0, 1)] [(1, 5), (2, 6), (3, 7)] 4
      heapShortDest_dest heapShortDest_source (by decide) (by decide) (by decide)
  exact ⟨h1, pD1, L, ha, hch, hv, hsz⟩

theorem Heap.get_of_le {h : Heap T} {a : Nat} (ha : h.cells.length ≤ a) : h.get a = none := by
  unfold Heap.get
  rw [List.getElem?_eq_none ha]
  rfl

theorem mem_addrs_split {l : List (Nat × T)} {a : Nat} (ha : a ∈ addrs l) :
    ∃ l1 v l2, l = l1 ++ (a, v) :: l2 := by
  obtain ⟨⟨b, v⟩, hm, hb⟩ := List.mem_map.mp ha
  simp only at hb
  subst hb
  obtain ⟨l1, l2, e⟩ := List.append_of_mem hm
  exact ⟨l1, v, l2, e⟩

/-- Frame of `insert` at a node of a well-formed chain: it succeeds, and cells
outside the chain keep their contents. -/
theorem insert_chain_frame {g : Heap T} {pK : Ptr} {K : List (Nat × T)} (hK : IsChain g pK K)
    {k : Nat} (hk : k ∈ addrs K) (t : T) (after : Bool) :
    ∃ g2, insert g (some k) t after = some (g.cells.length, g2) ∧
      ∀ x, x < g.cells.length → x ∉ addrs K → g2.get x = g.get x := by
  obtain ⟨l1, v, l2, rfl⟩ := mem_addrs_split hk
  obtain ⟨hs1, hget, hs2, nd1, nd2, hc1, hc2, hdisj⟩ := hK.split
  have hpv : lastPtr none l1 ≠ some k := fun e => hc1 (lastPtr_mem (lastPtr_none_nil e) e)
  have hnx : firstPtr l2 none ≠ some k := fun e => hc2 (firstPtr_mem (firstPtr_none_nil e) e)
  have hp : ∀ p, lastPtr none l1 = some p → (g.get p).isSome := by
    intro p e
    obtain ⟨w, pv, hg⟩ := lastPtr_live hs1 (lastPtr_none_nil e) e
    simp [hg]
  have hq : ∀ q, firstPtr l2 none = some q → (g.get q).isSome := by
    intro q e
    obtain ⟨w, nx, hg⟩ := firstPtr_live hs2 (firstPtr_none_nil e) e
    simp [hg]
  have hout : ∀ x, x ∉ addrs (l1 ++ (k, v) :: l2) →
      x ≠ k ∧ ¬ lastPtr none l1 = some x ∧ ¬ firstPtr l2 none = some x := by
    intro x hx
    rw [addrs_append, addrs_cons, List.mem_append, List.mem_cons, not_or, not_or] at hx
    exact ⟨hx.2.1, fun e => hx.1 (lastPtr_mem (lastPtr_none_nil e) e),
      fun e => hx.2.2 (firstPtr_mem (firstPtr_none_nil e) e)⟩
  cases after with
  | false =>
    obtain ⟨g2, hins, _, _, hall⟩ := insert_before_eq g k t v _ _ hget hpv hp
    refine ⟨g2, hins, fun x hx hxK => ?_⟩
    obtain ⟨e1, e2, _⟩ := hout x hxK
    rw [hall]; simp [Nat.ne_of_lt hx, e1, e2]
  | true =>
    obtain ⟨g2, hins, _, _, hall⟩ := insert_after_eq g k t v _ _ hget hnx hq
    refine ⟨g2, hins, fun x hx hxK => ?_⟩
    obtain ⟨e1, _, e3⟩ := hout x hxK
    rw [hall]; simp [Nat.ne_of_lt hx, e1, e3]

/-- Frame of `remove` at a node of a well-formed chain: it succeeds, and cells
outside the chain keep their contents. -/
theorem remove_chain_frame {g : Heap T} {pK : Ptr} {K : List (Nat × T)} (hK : IsChain g pK K)
    {k : Nat} (hk : k ∈ addrs K) :
    ∃ ret g2, remove g (some k) = some (ret, g2) ∧
      ∀ x, x ∉ addrs K → g2.get x = g.get x := by
  obtain ⟨l1, v, l2, rfl⟩ := mem_addrs_split hk
  obtain ⟨g2, hrem, _, _, hall, _⟩ := remove_chain_eq hK
  refine ⟨_, g2, hrem, fun x hx => ?_⟩
  rw [addrs_append, addrs_cons, List.mem_append, List.mem_cons, not_or, not_or] at hx
  have e2 : ¬ lastPtr none l1 = some x := fun e => hx.1 (lastPtr_mem (lastPtr_none_nil e) e)
  have e3 : ¬ firstPtr l2 none = some x := fun e => hx.2.2 (firstPtr_mem (firstPtr_none_nil e) e)
  rw [hall]; simp [hx.2.1, e2, e3]

/-- Frame of the write `p->data = t` at a node of a chain. -/
theorem setData_chain_frame {g : Heap T} {pK : Ptr} {K : List (Nat × T)} (hK : IsChain g pK K)
    {k : Nat} (hk : k ∈ addrs K) (t : T) :
    ∃ g2, g.setData k t = some g2 ∧ ∀ x, x ∉ addrs K → g2.get x = g.get x := by
  obtain ⟨l1, v, l2, rfl⟩ := mem_addrs_split hk
  obtain ⟨nx, pv, hg⟩ := IsSeg.live hK k v (by simp)
  refine ⟨_, Heap.setData_eq hg t, fun x hx => ?_⟩
  have : x ≠ k := fun e => hx (e ▸ hk)
  rw [Heap.get_write]; simp [this]

/-- C3: `copy` leaves every existing cell, so every node of the source, as it
was; the nodes of the copy are newly allocated and none is a node of the source;
an `insert`, `remove`, value write or `assign` on the copy then succeeds and
leaves the source chain, with its values, links and length, unchanged. -/
theorem copy_leaves_source (h : Heap T) (pC : Ptr) (C : List (Nat × T)) (fuel : Nat)
    (hwf : IsChain h pC C) (hf : C.length < fuel) :
    ∃ h1 pD K, copy fuel h pC = some (pD, h1) ∧ IsChain h1 pD K ∧
      (∀ x, x < h.cells.length → h1.get x = h.get x) ∧ IsChain h1 pC C ∧ h1.freed = h.freed ∧
      (∀ a ∈ addrs K, h.get a = none ∧ h.cells.length ≤ a ∧ a ∉ addrs C) ∧
      (∀ k ∈ addrs K, ∀ (t : T) (after : Bool), ∃ n h2,
        insert h1 (some k) t after = some (n, h2) ∧ IsChain h2 pC C ∧
        ∀ x, x < h.cells.length → h2.get x = h.get x) ∧
      (∀ k ∈ addrs K, ∃ ret h2, remove h1 (some k) = some (ret, h2) ∧ IsChain h2 pC C ∧
        ∀ x, x < h.cells.length → h2.get x = h.get x) ∧
      (∀ k ∈ addrs K, ∀ t : T, ∃ h2, h1.setData k t = some h2 ∧ IsChain h2 pC C ∧
        ∀ x, x < h.cells.length → h2.get x = h.get x) ∧
      (∀ (prevS pS : Ptr) (S : List (Nat × T)) (fuel2 : Nat), IsSeg h1 prevS pS S none →
        (∀ a ∈ addrs K, a ∉ addrs S) → K.length < fuel2 → S.length < fuel2 →
        ∃ pD2 h2, assign fuel2 h1 pD pS = some (pD2, h2) ∧ IsChain h2 pC C ∧
          ∀ x, x < h.cells.length → h2.get x = h.get x) := by
  obtain ⟨h1, hcopy, hlen, hfreed, hfr, hch⟩ := copy_chain_eq fuel hwf (Nat.le_of_lt hf)
  have hCl := IsSeg.lt_length hwf
  have hKge : ∀ a ∈ addrs (freshChain h.cells.length (values C)), h.cells.length ≤ a :=
    fun a ha => (mem_addrs_freshChain ha).1
  have hC1 : IsChain h1 pC C := IsSeg.frame hwf (fun a ha => hfr a (hCl a ha))
  have hlen1 : h.cells.length ≤ h1.cells.length := by omega
  -- a later heap that agrees with `h1` outside the copy agrees with `h` on the old cells
  have hkeep : ∀ h2 : Heap T,
      (∀ x, x < h1.cells.length → x ∉ addrs (freshChain h.cells.length (values C)) →
        h2.get x = h1.get x) →
      IsChain h2 pC C ∧ ∀ x, x < h.cells.length → h2.get x = h.get x := by
    intro h2 hfr2
    have hold : ∀ x, x < h.cells.length → h2.get x = h.get x := by
      intro x hx
      rw [hfr2 x (by omega) (fun hm => by have := hKge x hm; omega), hfr x hx]
    exact ⟨IsSeg.frame hwf (fun a ha => hold a (hCl a ha)), hold⟩
  refine ⟨h1, _, _, hcopy, hch, hfr, hC1, hfreed, ?_, ?_, ?_, ?_, ?_⟩
  · intro a ha
    have hge := hKge a ha
    exact ⟨Heap.get_of_le hge, hge, fun hm => by have := hCl a hm; omega⟩
  · intro k hk t after
    obtain ⟨h2, hins, hfr2⟩ := insert_chain_frame hch hk t after
    exact ⟨_, h2, hins, hkeep h2 hfr2⟩
  · intro k hk
    obtain ⟨ret, h2, hrem, hfr2⟩ := remove_chain_frame hch hk
    exact ⟨ret, h2, hrem, hkeep h2 (fun x _ hx => hfr2 x hx)⟩
  · intro k hk t
    obtain ⟨h2, hset, hfr2⟩ := setData_chain_frame hch hk t
    exact ⟨h2, hset, hkeep h2 (fun x _ hx => hfr2 x hx)⟩
  · intro prevS pS S fuel2 hS hdisj hfK hfS
    obtain ⟨h2, hassign, _, _, _, hfr2⟩ := assign_chain_eq fuel2 hch hS hdisj hfK hfS
    exact ⟨_, h2, hassign, hkeep h2 hfr2⟩

/-- C3 on the chain `[1, 2, 3]`: after `copy`, the source is still the chain
`[1, 2, 3]`, and stays so when a node is inserted at or removed from the copy. -/
theorem copy_leaves_source_witness :
    IsChain heap123 (some 0) [(0, 1), (1, 2), (2, 3)] ∧
    ∃ h1 pD K, copy 4 heap123 (some 0) = some (pD, h1) ∧ IsChain h1 pD K ∧
      IsChain h1 (some 0) [(0, 1), (1, 2), (2, 3)] ∧
      (∀ k ∈ addrs K, ∀ (t : Nat) (after : Bool), ∃ n h2,
        insert h1 (some k) t after = some (n, h2) ∧
        IsChain h2 (some 0) [(0, 1), (1, 2), (2, 3)]) ∧
      (∀ k ∈ addrs K, ∃ ret h2, remove h1 (some k) = some (ret, h2) ∧
        IsChain h2 (some 0) [(0, 1), (1, 2), (2, 3)]) := by
  refine ⟨heap123_chain, ?_⟩
  obtain ⟨h1, pD, K, hc, hch, _, hC, _, _, hins, hrem, _, _⟩ :=
    copy_leaves_source heap123 (some 0) [(0, 1), (1, 2), (2, 3)] 4 heap123_chain (by decide)
  refine ⟨h1, pD, K, hc, hch, hC, ?_, ?_⟩
  · intro k hk t after
    obtain ⟨n, h2, hi, hC2, _⟩ := hins k hk t after
    exact ⟨n, h2, hi, hC2⟩
  · intro k hk
    obtain ⟨ret, h2, hr, hC2, _⟩ := hrem k hk
    exact ⟨ret, h2, hr, hC2⟩

/-! ## Clear, size, display and swap -/

theorem intercalate_go_append (s x y : String) (l : List String) :
    String.intercalate.go (x ++ y) s l = x ++ String.intercalate.go y s l := by
  induction l generalizing y with
  | nil => rfl
  | cons a l ih =>
    simp only [String.intercalate.go]
    rw [String.append_assoc, String.append_assoc, ih, String.append_assoc]

theorem joined_nil (render : T → String) : joined render [] = "" := rfl

theorem joined_single (render : T → String) (v : T) : joined render [v] = render v := rfl

theorem joined_cons_cons (render : T → String) (v w : T) (vs : List T) :
    joined render (v :: w :: vs) = render v ++ " -> " ++ joined render (w :: vs) := by
  simp only [joined, List.map_cons, String.intercalate, String.intercalate.go]
  rw [intercalate_go_append]

theorem displayLoop_seg (render : T → String) (l : List (Nat × T)) :
    ∀ (h : Heap T) (prev p : Ptr) (fuel : Nat) (out : String),
      IsSeg h prev p l none → l.length < fuel →
      displayLoop render fuel h p out = some (out ++ joined render (values l)) := by
  induction l with
  | nil =>
    intro h prev p fuel out hs hf
    cases hs
    cases fuel with
    | zero => simp at hf
    | succ f => simp [displayLoop, values, joined_nil]
  | cons y l ih =>
    intro h prev p fuel out hs hf
    obtain ⟨a, v⟩ := y
    obtain ⟨hp, nx, hget, hrest⟩ := hs
    subst hp
    cases fuel with
    | zero => simp at hf
    | succ f =>
      simp only [List.length_cons, Nat.add_lt_add_iff_right] at hf
      cases l with
      | nil =>
        cases hrest
        cases f with
        | zero => simp at hf
        | succ f2 => simp [displayLoop, hget, values, joined_single]
      | cons z l =>
        obtain ⟨b, w⟩ := z
        have hnx : nx = some b := hrest.1
        subst hnx
        have := ih h (some a) (some b) f (out ++ render v ++ " -> ") hrest hf
        simp only [displayLoop, hget, Option.bind_eq_bind, Option.some_bind] at this ⊢
        rw [this]
        have hv : values ((a, v) :: (b, w) :: l) = v :: w :: values l := rfl
        have hv2 : values ((b, w) :: l) = w :: values l := rfl
        rw [hv, hv2, joined_cons_cons, String.append_assoc, String.append_assoc,
          String.append_assoc]

theorem heapLongDest_dest : IsChain heapLongDest (some 0) [(0, 1), (1, 2), (2, 3), (3, 4)] :=
  ⟨rfl, some 1, rfl, rfl, some 2, rfl, rfl, some 3, rfl, rfl, none, rfl, rfl⟩

theorem heapLongDest_source : IsChain heapLongDest (some 4) [(4, 9), (5, 8)] :=
  ⟨rfl, some 5, rfl, rfl, none, rfl, rfl⟩

/-- C15: `clear` on the head reference of a well-formed chain deletes every node
of the chain once, front to back, as many deletions as `size` counts, and leaves
the reference null; on a null reference it deletes nothing. -/
theorem clear_deletes_every_node (h : Heap T) (pHead : Ptr) (l : List (Nat × T)) (fuel : Nat)
    (hwf : IsChain h pHead l) (hf : l.length < fuel) :
    clear fuel h none = some (none, h) ∧
    ∃ h1, clear fuel h pHead = some (none, h1) ∧
      h1.freed = h.freed ++ addrs l ∧ (addrs l).Nodup ∧
      size fuel h pHead = some (addrs l).length ∧
      (∀ a ∈ addrs l, (h.get a).isSome ∧ h1.get a = none) ∧
      (∀ x, x ∉ addrs l → h1.get x = h.get x) := by
  obtain ⟨h1, hclear, _, hfreed, hall⟩ := clear_seg l h none pHead fuel hwf hf
  refine ⟨?_, h1, hclear, hfreed, IsSeg.nodup hwf, ?_, ?_, ?_⟩
  · cases fuel with
    | zero => simp at hf
    | succ f => rfl
  · rw [size_chain fuel hwf hf]; simp [addrs]
  · intro a ha
    obtain ⟨l1, v, l2, rfl⟩ := mem_addrs_split ha
    obtain ⟨nx, pv, hg⟩ := IsSeg.live hwf a v (by simp)
    refine ⟨by simp [hg], ?_⟩
    rw [hall]; simp [ha]
  · intro x hx
    rw [hall]; simp [hx]

/-- C15 on the chain `[1, 2, 3]`: `clear` deletes the addresses 0, 1, 2 in this
order and leaves a null reference. -/
theorem clear_deletes_every_node_witness :
    IsChain heap123 (some 0) [(0, 1), (1, 2), (2, 3)] ∧
    ∃ h1, clear 4 heap123 (some 0) = some (none, h1) ∧ h1.freed = [0, 1, 2] ∧
      size 4 heap123 (some 0) = some 3 := by
  refine ⟨heap123_chain, ?_⟩
  obtain ⟨_, h1, hc, hfr, _, hsz, _, _⟩ :=
    clear_deletes_every_node heap123 (some 0) [(0, 1), (1, 2), (2, 3)] 4 heap123_chain (by decide)
  exact ⟨h1, hc, hfr, hsz⟩

/-- C16: `insert` at a node of a well-formed chain changes, among the existing
cells, only `position.pPrev` and the `pNext` of the old previous neighbour
(`after = false`), or only `position.pNext` and the `pPrev` of the old next
neighbour (`after = true`); every other cell, and the values of `position` and of
both neighbours, are as before. -/
theorem insert_changes_only_neighbours (h : Heap T) (head : Ptr) (l1 l2 : List (Nat × T))
    (c : Nat) (v t : T) (hwf : IsChain h head (l1 ++ (c, v) :: l2)) :
    (∃ h1 nx pv, insert h (some c) t false = some (h.cells.length, h1) ∧
      h.get c = some ⟨v, nx, pv⟩ ∧ h1.get c = some ⟨v, nx, some h.cells.length⟩ ∧
      (∀ p, pv = some p → ∃ n, h.get p = some n ∧
        h1.get p = some ⟨n.data, some h.cells.length, n.pPrev⟩) ∧
      (∀ x, x ≠ h.cells.length → x ≠ c → pv ≠ some x → h1.get x = h.get x)) ∧
    (∃ h1 nx pv, insert h (some c) t true = some (h.cells.length, h1) ∧
      h.get c = some ⟨v, nx, pv⟩ ∧ h1.get c = some ⟨v, some h.cells.length, pv⟩ ∧
      (∀ q, nx = some q → ∃ n, h.get q = some n ∧
        h1.get q = some ⟨n.data, n.pNext, some h.cells.length⟩) ∧
      (∀ x, x ≠ h.cells.length → x ≠ c → nx ≠ some x → h1.get x = h.get x)) := by
  obtain ⟨hs1, hget, hs2, nd1, nd2, hc1, hc2, hdisj⟩ := hwf.split
  have hcl := Heap.get_lt hget
  have hne : c ≠ h.cells.length := by omega
  have hpv : lastPtr none l1 ≠ some c := fun e => hc1 (lastPtr_mem (lastPtr_none_nil e) e)
  have hnx : firstPtr l2 none ≠ some c := fun e => hc2 (firstPtr_mem (firstPtr_none_nil e) e)
  have hp : ∀ p, lastPtr none l1 = some p → (h.get p).isSome := by
    intro p e
    obtain ⟨w, pv, hg⟩ := lastPtr_live hs1 (lastPtr_none_nil e) e
    simp [hg]
  have hq : ∀ q, firstPtr l2 none = some q → (h.get q).isSome := by
    intro q e
    obtain ⟨w, nx, hg⟩ := firstPtr_live hs2 (firstPtr_none_nil e) e
    simp [hg]
  constructor
  · obtain ⟨h1, hins, _, _, hall⟩ := insert_before_eq h c t v _ _ hget hpv hp
    refine ⟨h1, _, _, hins, hget, ?_, ?_, ?_⟩
    · rw [hall]; simp [hne]
    · intro p e
      obtain ⟨n, hn⟩ := Option.isSome_iff_exists.mp (hp p e)
      have h1p : p ≠ h.cells.length := by have := Heap.get_lt hn; omega
      have h2p : p ≠ c := fun e2 => hpv (e2 ▸ e)
      refine ⟨n, hn, ?_⟩
      rw [hall]; simp [h1p, h2p, e, hn]
    · intro x h1x h2x h3x
      rw [hall]; simp [h1x, h2x, h3x]
  · obtain ⟨h1, hins, _, _, hall⟩ := insert_after_eq h c t v _ _ hget hnx hq
    refine ⟨h1, _, _, hins, hget, ?_, ?_, ?_⟩
    · rw [hall]; simp [hne]
    · intro q e
      obtain ⟨n, hn⟩ := Option.isSome_iff_exists.mp (hq q e)
      have h1q : q ≠ h.cells.length := by have := Heap.get_lt hn; omega
      have h2q : q ≠ c := fun e2 => hnx (e2 ▸ e)
      refine ⟨n, hn, ?_⟩
      rw [hall]; simp [h1q, h2q, e, hn]
    · intro x h1x h2x h3x
      rw [hall]; simp [h1x, h2x, h3x]

/-- C16 on the chain `[1, 2, 3]`: inserting before or after the node holding 2
leaves the far neighbour's cell as it was. -/
theorem insert_changes_only_neighbours_witness :
    IsChain heap123 (some 0) ([(0, 1)] ++ (1, 2) :: [(2, 3)]) ∧
    (∃ h1, insert heap123 (some 1) 99 false = some (3, h1) ∧ h1.get 2 = heap123.get 2) ∧
    (∃ h1, insert heap123 (some 1) 99 true = some (3, h1) ∧ h1.get 0 = heap123.get 0) := by
  refine ⟨heap123_chain, ?_⟩
  obtain ⟨⟨h1, nx, pv, hi, hg, _, _, hfr⟩, ⟨h2, nx2, pv2, hi2, hg2, _, _, hfr2⟩⟩ :=
    insert_changes_only_neighbours heap123 (some 0) [(0, 1)] [(2, 3)] 1 2 99 heap123_chain
  have e : heap123.get 1 = some ⟨2, some 2, some 0⟩ := rfl
  rw [e] at hg hg2
  cases hg
  cases hg2
  exact ⟨⟨h1, hi, hfr 2 (by decide) (by decide) (by decide)⟩,
    ⟨h2, hi2, hfr2 0 (by decide) (by decide) (by decide)⟩⟩

/-- C17: `size` of the head of a well-formed chain is the number of nodes on the
way along `pNext` to null, the length of the value sequence; `size(nullptr)` is
0.  The function only reads the heap: it returns a count and no heap. -/
theorem size_counts_nodes (h : Heap T) (pHead : Ptr) (l : List (Nat × T)) (fuel : Nat)
    (hwf : IsChain h pHead l) (hf : l.length < fuel) :
    size fuel h pHead = some l.length ∧ l.length = (values l).length ∧
    (addrs l).Nodup ∧ size fuel h none = some 0 := by
  refine ⟨size_chain fuel hwf hf, (values_length l).symm, IsSeg.nodup hwf, ?_⟩
  cases fuel with
  | zero => simp at hf
  | succ f => rfl

/-- C17 on the chain `[1, 2, 3]`: `size` is 3. -/
theorem size_counts_nodes_witness :
    IsChain heap123 (some 0) [(0, 1), (1, 2), (2, 3)] ∧ size 4 heap123 (some 0) = some 3 :=
  ⟨heap123_chain,
    (size_counts_nodes heap123 (some 0) [(0, 1), (1, 2), (2, 3)] 4 heap123_chain (by decide)).1⟩

/-- C18: `operator <<` on the head of a well-formed chain appends to the stream
the rendering of each value in order with `" -> "` between consecutive ones and
nowhere else; for the null head it writes nothing.  The function only reads the
heap: it returns the stream and no heap. -/
theorem display_writes_joined (render : T → String) (h : Heap T) (pHead : Ptr)
    (l : List (Nat × T)) (fuel : Nat) (out : String)
    (hwf : IsChain h pHead l) (hf : l.length < fuel) :
    display render fuel h pHead out = some (out ++ " -> ".intercalate ((values l).map render)) ∧
    display render fuel h none out = some out ∧
    (∀ (v w : T) (vs : List T), " -> ".intercalate ((v :: w :: vs).map render) =
      render v ++ " -> " ++ " -> ".intercalate ((w :: vs).map render)) ∧
    (∀ v : T, " -> ".intercalate ([v].map render) = render v) ∧
    " -> ".intercalate (([] : List T).map render) = "" := by
  refine ⟨displayLoop_seg render l h none pHead fuel out hwf hf, ?_,
    fun v w vs => joined_cons_cons render v w vs, fun v => rfl, rfl⟩
  cases fuel with
  | zero => simp at hf
  | succ f => rfl

/-- C18 on the chain `[1, 2, 3]` with decimal rendering: the text written is
`1 -> 2 -> 3`. -/
theorem display_writes_joined_witness :
    IsChain heap123 (some 0) [(0, 1), (1, 2), (2, 3)] ∧
    display (fun n : Nat => toString n) 4 heap123 (some 0) "" = some "1 -> 2 -> 3" := by
  refine ⟨heap123_chain, ?_⟩
  have hd := (display_writes_joined (fun n : Nat => toString n) heap123 (some 0)
    [(0, 1), (1, 2), (2, 3)] 4 "" heap123_chain (by decide)).1
  rw [hd]
  decide

/-- C19: `swap` exchanges the two references, null or not, and leaves the heap
as it is; a second `swap` restores both references. -/
theorem swap_exchanges_references (h : Heap T) (a b : Ptr) :
    swap h a b = (h, b, a) ∧
    swap (swap h a b).1 (swap h a b).2.1 (swap h a b).2.2 = (h, a, b) ∧
    (∀ x, (swap h a b).1.get x = h.get x) ∧
    swap h none b = (h, b, none) ∧ swap h a none = (h, none, a) ∧
    swap h (none : Ptr) none = (h, none, none) :=
  ⟨rfl, rfl, fun _ => rfl, rfl, rfl, rfl⟩

/-! ## Repeated assignment and node reuse -/

/-- Two heaps with the same number of cells, the same live nodes and the same
log are equal. -/
theorem Heap.ext_get {h g : Heap T} (hlen : g.cells.length = h.cells.length)
    (hfreed : g.freed = h.freed) (hget : ∀ x, g.get x = h.get x) : g = h := by
  obtain ⟨hc, hf⟩ := h
  obtain ⟨gc, gf⟩ := g
  simp only at hlen hfreed
  subst hfreed
  congr 1
  apply List.ext_getElem? 
  intro n
  have hn := hget n
  unfold Heap.get at hn
  simp only at hn
  by_cases hl : n < hc.length
  · have hl2 : n < gc.length := by omega
    rw [List.getElem?_eq_getElem hl, List.getElem?_eq_getElem hl2] at hn ⊢
    simpa using hn
  · rw [List.getElem?_eq_none (by omega), List.getElem?_eq_none (by omega)]

/-- The cells of a run are determined by the run. -/
theorem IsSeg.get_eq {h g : Heap T} {l : List (Nat × T)} :
    ∀ {prev p q : Ptr}, IsSeg h prev p l q → IsSeg g prev p l q →
      ∀ a ∈ addrs l, g.get a = h.get a := by
  induction l with
  | nil => intro prev p q _ _ a ha; simp [addrs] at ha
  | cons x l ih =>
    intro prev p q hs hg a ha
    obtain ⟨b, v⟩ := x
    obtain ⟨_, nx, hget, hrest⟩ := hs
    obtain ⟨_, nx2, hget2, hrest2⟩ := hg
    have e1 := hrest.start
    have e2 := hrest2.start
    rw [addrs_cons, List.mem_cons] at ha
    rcases ha with rfl | ha
    · rw [hget, hget2, e1, e2]
    · rw [e1] at hrest
      rw [e2] at hrest2
      exact ih hrest hrest2 a ha

theorem overwrite_values_self (l : List (Nat × T)) : overwrite l (values l) = l := by
  induction l with
  | nil => rfl
  | cons x l ih =>
    obtain ⟨a, v⟩ := x
    show (a, v) :: overwrite l (values l) = (a, v) :: l
    rw [ih]

theorem assignResult_same_values (base : Nat) {L S : List (Nat × T)}
    (hv : values L = values S) : assignResult base L S = L := by
  have hl : L.length = S.length := by
    have := congrArg List.length hv
    rwa [values_length, values_length] at this
  unfold assignResult
  rw [← hv, overwrite_values_self, List.drop_eq_nil_of_le (Nat.le_of_eq hl.symm)]
  simp [values, freshChain_nil]

theorem mem_addrs_assignResult {base : Nat} {D S : List (Nat × T)} {a : Nat}
    (ha : a ∈ addrs (assignResult base D S)) : a ∈ addrs D ∨ base ≤ a := by
  unfold assignResult at ha
  rw [addrs_append, List.mem_append] at ha
  rcases ha with ha | ha
  · exact Or.inl (mem_addrs_overwrite ha)
  · exact Or.inr (mem_addrs_freshChain ha).1

/-- The state after `assign` on disjoint chains: the source is intact and still
disjoint from the new destination. -/
theorem assign_chain_source {h : Heap T} {prevS pS : Ptr} {D S : List (Nat × T)}
    (hS : IsSeg h prevS pS S none) (hdisj : ∀ a ∈ addrs D, a ∉ addrs S) {h1 : Heap T}
    (hfr : ∀ x, x < h.cells.length → x ∉ addrs D → h1.get x = h.get x) :
    IsSeg h1 prevS pS S none ∧
      ∀ a ∈ addrs (assignResult h.cells.length D S), a ∉ addrs S := by
  have hSl := hS.lt_length
  refine ⟨hS.frame (fun a ha => hfr a (hSl a ha) (fun hm => hdisj a hm ha)), ?_⟩
  intro a ha hm
  rcases mem_addrs_assignResult ha with hD | hge
  · exact hdisj a hD hm
  · have := hSl a hm
    omega

/-- C11: a second `assign(D, S)` right after the first leaves the heap (every
node's value and links, the number of cells and the deallocation log) and the
destination head reference exactly as the first call left them. -/
theorem assign_twice_same (h : Heap T) (pD pS : Ptr) (D S : List (Nat × T)) (fuel : Nat)
    (hD : IsChain h pD D) (hS : IsChain h pS S) (hdisj : ∀ a ∈ addrs D, a ∉ addrs S)
    (hfD : D.length < fuel) (hfS : S.length < fuel) :
    ∃ h1 pD1 L, assign fuel h pD pS = some (pD1, h1) ∧ IsChain h1 pD1 L ∧
      values L = values S ∧
      assign fuel h1 pD1 pS = some (pD1, h1) := by
  obtain ⟨h1, hassign, hch, hlen, hfreed, hfr⟩ := assign_chain_eq fuel hD hS hdisj hfD hfS
  obtain ⟨hS1, hdisj1⟩ := assign_chain_source hS hdisj hfr
  have hv := values_assignResult h.cells.length D S
  have hL := length_assignResult h.cells.length D S
  obtain ⟨h2, hassign2, hch2, hlen2, hfreed2, hfr2⟩ :=
    assign_chain_eq fuel hch hS1 hdisj1 (by rw [hL]; exact hfS) hfS
  rw [assignResult_same_values _ hv] at hassign2 hch2
  have hlen2b : h2.cells.length = h1.cells.length := by rw [hlen2, hL]; omega
  have hfreed2b : h2.freed = h1.freed := by
    rw [hfreed2, List.drop_eq_nil_of_le (Nat.le_of_eq hL)]; simp [addrs]
  have heq : h2 = h1 := by
    refine Heap.ext_get hlen2b hfreed2b (fun x => ?_)
    by_cases hx : x ∈ addrs (assignResult h.cells.length D S)
    · exact IsSeg.get_eq hch hch2 x hx
    · by_cases hxl : x < h1.cells.length
      · exact hfr2 x hxl hx
      · rw [Heap.get_of_le (by omega), Heap.get_of_le (by omega)]
  rw [heq] at hassign2
  exact ⟨h1, _, _, hassign, hch, hv, hassign2⟩

/-- C11 on the destination `[1]` and the source `[5, 6, 7]`: the second call
returns the state of the first. -/
theorem assign_twice_same_witness :
    IsChain heapShortDest (some 0) [(0, 1)] ∧
    IsChain heapShortDest (some 1) [(1, 5), (2, 6), (3, 7)] ∧
    ∃ h1 pD1, assign 4 heapShortDest (some 0) (some 1) = some (pD1, h1) ∧
      assign 4 h1 pD1 (some 1) = some (pD1, h1) := by
  refine ⟨heapShortDest_dest, heapShortDest_source, ?_⟩
  obtain ⟨h1, pD1, L, ha, _, _, ha2⟩ :=
    assign_twice_same heapShortDest (some 0) (some 1) [(0, 1)] [(1, 5), (2, 6), (3, 7)] 4
      heapShortDest_dest heapShortDest_source (by decide) (by decide) (by decide)
  exact ⟨h1, pD1, ha, ha2⟩

/-- The cell of the node at index `i` of a run. -/
theorem IsSeg.get_at {h : Heap T} {l : List (Nat × T)} {q : Ptr} :
    ∀ {prev p : Ptr} {i a : Nat} {v : T}, IsSeg h prev p l q → l[i]? = some (a, v) →
      h.get a = some ⟨v, firstPtr (l.drop (i + 1)) q, lastPtr prev (l.take i)⟩ := by
  induction l with
  | nil => intro prev p i a v _ hi; simp at hi
  | cons x l ih =>
    intro prev p i a v hs hi
    obtain ⟨b, w⟩ := x
    obtain ⟨_, nx, hget, hrest⟩ := hs
    cases i with
    | zero =>
      simp only [List.getElem?_cons_zero, Option.some.injEq, Prod.mk.injEq] at hi
      obtain ⟨rfl, rfl⟩ := hi
      rw [hget, hrest.start]
      rfl
    | succ j =>
      simp only [List.getElem?_cons_succ] at hi
      have := ih hrest hi
      rw [this]
      simp only [List.drop_succ_cons, List.take_succ_cons, lastPtr_cons]

theorem getElem?_overwrite (D : List (Nat × T)) (vs : List T) (i : Nat) :
    (overwrite D vs)[i]? =
      match D[i]?, vs[i]? with
      | some d, some w => some (d.1, w)
      | _, _ => none := by
  induction D generalizing vs i with
  | nil => rw [overwrite_nil_left]; simp
  | cons x D ih =>
    obtain ⟨a, v⟩ := x
    cases vs with
    | nil => simp [overwrite]
    | cons w vs =>
      cases i with
      | zero => simp [overwrite]
      | succ j => simp [overwrite, ih]

theorem lastPtr_eq_of_addrs {l l2 : List (Nat × T)} (prev : Ptr) (he : addrs l = addrs l2) :
    lastPtr prev l = lastPtr prev l2 := by
  induction l generalizing l2 prev with
  | nil =>
    cases l2 with
    | nil => rfl
    | cons y l2 => simp [addrs] at he
  | cons x l ih =>
    cases l2 with
    | nil => simp [addrs] at he
    | cons y l2 =>
      simp only [addrs, List.map_cons, List.cons.injEq] at he
      rw [lastPtr_cons, lastPtr_cons, he.1]
      exact ih _ he.2

theorem firstPtr_drop (l : List (Nat × T)) (k : Nat) (q : Ptr) :
    firstPtr (l.drop k) q = match l[k]? with
      | some x => some x.1
      | none => q := by
  induction l generalizing k with
  | nil => simp [firstPtr]
  | cons x l ih =>
    cases k with
    | zero => simp [firstPtr]
    | succ j => simp [ih]

theorem take_min_length (l : List Nat) (k : Nat) : l.take k = l.take (min l.length k) := by
  by_cases hk : k ≤ l.length
  · rw [Nat.min_eq_right hk]
  · rw [Nat.min_eq_left (by omega), List.take_of_length_le (by omega), List.take_of_length_le (by omega)]

theorem addrs_length (l : List (Nat × T)) : (addrs l).length = l.length := by
  simp [addrs]

/-- C12: `assign` on disjoint well-formed chains reuses the first `min |D| |S|`
destination nodes: they stay in place, same addresses in the same order, with
their values overwritten by the source values and no node of them reallocated.
Their `pPrev` is unchanged, and so is their `pNext` except for the last reused
node, whose `pNext` links to the rest of the new chain (the first appended node,
or null).  It allocates `|S| - |D|` fresh nodes and deletes the `|D| - |S|`
remaining destination nodes, each once. -/
theorem assign_reuses_nodes (h : Heap T) (pD pS : Ptr) (D S : List (Nat × T)) (fuel : Nat)
    (hD : IsChain h pD D) (hS : IsChain h pS S) (hdisj : ∀ a ∈ addrs D, a ∉ addrs S)
    (hfD : D.length < fuel) (hfS : S.length < fuel) :
    ∃ h1 pD1 L, assign fuel h pD pS = some (pD1, h1) ∧ IsChain h1 pD1 L ∧
      values L = values S ∧
      addrs (L.take (min D.length S.length)) = addrs (D.take (min D.length S.length)) ∧
      (∀ i a v, D[i]? = some (a, v) → i < S.length →
        ∃ w, (values S)[i]? = some w ∧ L[i]? = some (a, w) ∧
          h.get a = some ⟨v, firstPtr (D.drop (i + 1)) none, lastPtr none (D.take i)⟩ ∧
          h1.get a = some ⟨w, firstPtr (L.drop (i + 1)) none, lastPtr none (D.take i)⟩ ∧
          (i + 1 < min D.length S.length →
            firstPtr (L.drop (i + 1)) none = firstPtr (D.drop (i + 1)) none)) ∧
      h1.cells.length = h.cells.length + (S.length - D.length) ∧
      addrs (L.drop (min D.length S.length)) =
        List.range' h.cells.length (S.length - D.length) ∧
      h1.freed = h.freed ++ addrs (D.drop S.length) ∧
      (addrs (D.drop S.length)).length = D.length - S.length ∧
      (addrs (D.drop S.length)).Nodup := by
  obtain ⟨h1, hassign, hch, hlen, hfreed, hfr⟩ := assign_chain_eq fuel hD hS hdisj hfD hfS
  have hndD := IsSeg.nodup hD
  have hOlen : (overwrite D (values S)).length = min D.length S.length := by
    rw [length_overwrite, values_length]
  have htake : (assignResult h.cells.length D S).take (min D.length S.length) =
      overwrite D (values S) := by
    unfold assignResult
    rw [← hOlen, List.take_left']
    rfl
  have hdrop : (assignResult h.cells.length D S).drop (min D.length S.length) =
      freshChain h.cells.length (values (S.drop D.length)) := by
    unfold assignResult
    rw [← hOlen, List.drop_left']
    rfl
  have haddr : addrs (overwrite D (values S)) = addrs (D.take (min D.length S.length)) := by
    rw [addrs_overwrite, values_length, addrs_take, take_min_length, addrs_length]
  refine ⟨h1, _, _, hassign, hch, values_assignResult _ D S, ?_, ?_, hlen, ?_, hfreed, ?_, ?_⟩
  · rw [htake, haddr]
  · intro i a v hi hiS
    have hiD : i < D.length := by
      by_contra hc
      rw [List.getElem?_eq_none (by omega)] at hi
      cases hi
    have hiV : i < (values S).length := by rw [values_length]; exact hiS
    have hvi : (values S)[i]? = some (values S)[i] := List.getElem?_eq_getElem hiV
    have hOi : (overwrite D (values S))[i]? = some (a, (values S)[i]) := by
      rw [getElem?_overwrite, hi, hvi]
    have hLi : (assignResult h.cells.length D S)[i]? = some (a, (values S)[i]) := by
      unfold assignResult
      rw [List.getElem?_append_left (by rw [hOlen]; omega)]
      exact hOi
    have hprev : lastPtr none ((assignResult h.cells.length D S).take i) =
        lastPtr none (D.take i) := by
      apply lastPtr_eq_of_addrs
      have e1 : (assignResult h.cells.length D S).take i =
          ((assignResult h.cells.length D S).take (min D.length S.length)).take i := by
        rw [List.take_take, Nat.min_eq_left (by omega)]
      have e2 : D.take i = (D.take (min D.length S.length)).take i := by
        rw [List.take_take, Nat.min_eq_left (by omega)]
      rw [e1, e2, addrs_take, addrs_take _ i, htake, haddr]
    refine ⟨_, hvi, hLi, IsSeg.get_at hD hi, ?_, ?_⟩
    · rw [IsSeg.get_at hch hLi, hprev]
    · intro hlt
      have h1D : i + 1 < D.length := by omega
      have h1S : i + 1 < (values S).length := by rw [values_length]; omega
      rw [firstPtr_drop, firstPtr_drop]
      unfold assignResult
      rw [List.getElem?_append_left (by rw [hOlen]; exact hlt), getElem?_overwrite,
        List.getElem?_eq_getElem h1D, List.getElem?_eq_getElem h1S]
  · rw [hdrop, addrs_freshChain, values_length]
    simp
  · rw [addrs_length]; simp
  · rw [addrs_drop]
    exact hndD.sublist (List.drop_sublist _ _)

/-- C12 on the two scenarios: `[1, 2, 3, 4]` assigned from `[9, 8]`
becomes `[9, 8]` at the addresses 0, 1 with the addresses 2, 3 deleted and no
cell added; `[1]` assigned from `[5, 6, 7]` becomes `[5, 6, 7]` with two cells
added and nothing deleted. -/
theorem assign_reuses_nodes_witness :
    (IsChain heapLongDest (some 0) [(0, 1), (1, 2), (2, 3), (3, 4)] ∧
      IsChain heapLongDest (some 4) [(4, 9), (5, 8)] ∧
      ∃ h1 pD1 L, assign 5 heapLongDest (some 0) (some 4) = some (pD1, h1) ∧
        IsChain h1 pD1 L ∧ values L = [9, 8] ∧ addrs (L.take 2) = [0, 1] ∧
        h1.cells.length = heapLongDest.cells.length ∧ h1.freed = [2, 3]) ∧
    (IsChain heapShortDest (some 0) [(0, 1)] ∧
      IsChain heapShortDest (some 1) [(1, 5), (2, 6), (3, 7)] ∧
      ∃ h1 pD1 L, assign 4 heapShortDest (some 0) (some 1) = some (pD1, h1) ∧
        IsChain h1 pD1 L ∧ values L = [5, 6, 7] ∧ addrs (L.take 1) = [0] ∧
        h1.cells.length = heapShortDest.cells.length + 2 ∧ h1.freed = []) := by
  refine ⟨⟨heapLongDest_dest, heapLongDest_source, ?_⟩,
    ⟨heapShortDest_dest, heapShortDest_source, ?_⟩⟩
  · obtain ⟨h1, pD1, L, ha, hch, hv, had, _, hlen, _, hfr, _, _⟩ :=
      assign_reuses_nodes heapLongDest (some 0) (some 4) [(0, 1), (1, 2), (2, 3), (3, 4)]
        [(4, 9), (5, 8)] 5 heapLongDest_dest heapLongDest_source (by decide) (by decide)
        (by decide)
    exact ⟨h1, pD1, L, ha, hch, hv, had, hlen, hfr⟩
  · obtain ⟨h1, pD1, L, ha, hch, hv, had, _, hlen, _, hfr, _, _⟩ :=
      assign_reuses_nodes heapShortDest (some 0) (some 1) [(0, 1)]
        [(1, 5), (2, 6), (3, 7)] 4 heapShortDest_dest heapShortDest_source (by decide)
        (by decide) (by decide)
    exact ⟨h1, pD1, L, ha, hch, hv, had, hlen, hfr⟩

/-! ## Assignment between overlapping chains -/

/-- The first loop of `assign` when the source is a tail run of the destination:
the source values move forward into the leading destination nodes. -/
theorem assignFill_suffix (S : List (Nat × T)) :
    ∀ (P E : List (Nat × T)) (h : Heap T) (prevD pD dp : Ptr) (fuel : Nat),
      E = P ++ S → IsSeg h prevD pD E none → S.length < fuel →
      ∃ h1, assignFill fuel h (firstPtr S none) pD dp =
          some (h1, none, firstPtr (E.drop S.length) none,
            lastPtr dp (overwrite E (values S))) ∧
        h1.cells.length = h.cells.length ∧ h1.freed = h.freed ∧
        (∀ x, x ∉ addrs (overwrite E (values S)) → h1.get x = h.get x) ∧
        IsSeg h1 prevD pD (overwrite E (values S)) (firstPtr (E.drop S.length) none) := by
  induction S with
  | nil =>
    intro P E h prevD pD dp fuel hE hs hf
    cases fuel with
    | zero => simp at hf
    | succ f =>
      have hov : overwrite E (values ([] : List (Nat × T))) = [] := overwrite_nil_right E
      rw [hov]
      refine ⟨h, ?_, rfl, rfl, fun _ _ => rfl, ?_⟩
      · rw [hs.start]
        simp [assignFill, firstPtr, lastPtr]
      · rw [hs.start]; simp [IsSeg]
  | cons y S ih =>
    intro P E h prevD pD dp fuel hE hs hf
    obtain ⟨s, w⟩ := y
    cases fuel with
    | zero => simp at hf
    | succ f =>
      simp only [List.length_cons, Nat.add_lt_add_iff_right] at hf
      have hnd := IsSeg.nodup hs
      -- the first destination node and the run behind it
      obtain ⟨a, v, R, P2, hER, hR, hsrc⟩ : ∃ a v R P2, E = (a, v) :: R ∧ R = P2 ++ S ∧
          ∃ pvs, h.get s = some ⟨w, firstPtr S none, pvs⟩ := by
        have hseg : IsSeg h prevD pD (P ++ (s, w) :: S) none := hE ▸ hs
        obtain ⟨m, _, hs2⟩ := IsSeg.append_iff.mp hseg
        obtain ⟨_, nx, hget, hrest⟩ := hs2
        have hsrc : ∃ pvs, h.get s = some ⟨w, firstPtr S none, pvs⟩ := ⟨_, hrest.start ▸ hget⟩
        cases P with
        | nil => exact ⟨s, w, S, [], by simpa using hE, rfl, hsrc⟩
        | cons p0 P0 =>
          obtain ⟨a, v⟩ := p0
          exact ⟨a, v, P0 ++ (s, w) :: S, P0 ++ [(s, w)], by simpa using hE, by simp, hsrc⟩
      obtain ⟨pvs, hgetS⟩ := hsrc
      subst hER
      obtain ⟨hpD, nxD, hgetD, hrestD⟩ := hs
      subst hpD
      rw [addrs_cons, List.nodup_cons] at hnd
      have hal := Heap.get_lt hgetD
      have hfr2 : ∀ x, x ≠ a → (h.write a ⟨w, nxD, prevD⟩).get x = h.get x := by
        intro x hx
        rw [Heap.get_write]; simp [hx]
      have e1 : (h.write a ⟨w, nxD, prevD⟩).get a = some ⟨w, nxD, prevD⟩ := by
        rw [Heap.get_write]; simp [hal]
      have hR2 : IsSeg (h.write a ⟨w, nxD, prevD⟩) (some a) nxD R none :=
        hrestD.frame (fun x hx => hfr2 x (fun e => hnd.1 (e ▸ hx)))
      -- the source pointer after the step
      have e2 : ∃ n2, (h.write a ⟨w, nxD, prevD⟩).get s = some n2 ∧ n2.pNext = firstPtr S none := by
        by_cases hsa : s = a
        · subst hsa
          rw [hgetD] at hgetS
          cases hgetS
          exact ⟨_, e1, rfl⟩
        · exact ⟨_, (hfr2 s hsa).trans hgetS, rfl⟩
      obtain ⟨n2, hn2, hn2nx⟩ := e2
      obtain ⟨h1, hfill, hlen1, hfreed1, hfr1, hseg1⟩ :=
        ih P2 R (h.write a ⟨w, nxD, prevD⟩) (some a) nxD (some a) f hR hR2 hf
      have hov : overwrite ((a, v) :: R) (values ((s, w) :: S)) = (a, w) :: overwrite R (values S) :=
        rfl
      have hna : a ∉ addrs (overwrite R (values S)) := fun hm => hnd.1 (mem_addrs_overwrite hm)
      rw [hov]
      refine ⟨h1, ?_, ?_, ?_, ?_, ?_⟩
      · have hfp : firstPtr ((s, w) :: S) none = some s := rfl
        rw [hfp]
        simp [assignFill, hgetS, Heap.setData, hgetD, e1, hn2, hn2nx, hfill, lastPtr_cons]
      · rw [hlen1]; simp
      · rw [hfreed1]; rfl
      · intro x hx
        rw [addrs_cons, List.mem_cons, not_or] at hx
        rw [hfr1 x hx.2, hfr2 x hx.1]
      · refine ⟨rfl, nxD, ?_, hseg1⟩
        rw [hfr1 a hna, e1]

/-- The rest of `assign` once the first loop has used up the source: the
destination is cut behind the last reused node and the nodes beyond are deleted. -/
theorem assign_after_fill {h h1 : Heap T} {pD pS : Ptr} {D : List (Nat × T)} {vs : List T}
    (fuel : Nat) (hD : IsChain h pD D)
    (hfill : assignFill fuel h pS pD none =
      some (h1, none, firstPtr (D.drop vs.length) none, lastPtr none (overwrite D vs)))
    (hlen1 : h1.cells.length = h.cells.length) (hfreed1 : h1.freed = h.freed)
    (hfr1 : ∀ x, x ∉ addrs (overwrite D vs) → h1.get x = h.get x)
    (hseg1 : IsSeg h1 none pD (overwrite D vs) (firstPtr (D.drop vs.length) none))
    (hfD : D.length < fuel) :
    ∃ h3, assign fuel h pD pS = some (firstPtr (overwrite D vs) none, h3) ∧
      IsChain h3 (firstPtr (overwrite D vs) none) (overwrite D vs) ∧
      h3.cells.length = h.cells.length ∧ h3.freed = h.freed ++ addrs (D.drop vs.length) ∧
      (∀ x, x ∉ addrs D → h3.get x = h.get x) ∧
      (D.drop vs.length = [] → h3 = h1) := by
  have hndD := IsSeg.nodup hD
  have hovD : ∀ a, a ∈ addrs (overwrite D vs) → a ∈ addrs D := fun a ha =>
    mem_addrs_overwrite ha
  have hndov : (addrs (overwrite D vs)).Nodup := by
    rw [addrs_overwrite]
    exact hndD.sublist (List.take_sublist _ _)
  have hstart := hseg1.start
  unfold assign
  rw [hfill]
  simp only [Option.bind_eq_bind, Option.some_bind]
  by_cases hdr : D.drop vs.length = []
  · rw [hdr, firstPtr_nil] at hseg1 hstart
    rw [hdr, firstPtr_nil]
    simp only []
    refine ⟨h1, ?_, ?_, hlen1, ?_, ?_, fun _ => rfl⟩
    · rw [hstart]; rfl
    · rw [← hstart]; exact hseg1
    · rw [hfreed1]; simp [addrs]
    · intro x hxD
      exact hfr1 x (fun hm => hxD (hovD x hm))
  · obtain ⟨d, hd⟩ : ∃ d, firstPtr (D.drop vs.length) none = some d := by
      cases hc : D.drop vs.length with
      | nil => exact absurd hc hdr
      | cons y r => exact ⟨y.1, rfl⟩
    rw [hd] at hseg1 hstart
    rw [hd]
    simp only []
    have hdrop_ov : ∀ a, a ∈ addrs (D.drop vs.length) → a ∉ addrs (overwrite D vs) := by
      intro a ha
      rw [addrs_drop] at ha
      rw [addrs_overwrite]
      exact not_mem_take_of_mem_drop hndD ha
    have hcut : ∃ h2, (lastPtr none (overwrite D vs) = none →
          firstPtr (overwrite D vs) none = none ∧ h2 = h1) ∧
        (∀ p, lastPtr none (overwrite D vs) = some p →
          h1.setNext p none = some h2 ∧ firstPtr (overwrite D vs) none = pD) ∧
        h2.cells.length = h1.cells.length ∧ h2.freed = h1.freed ∧
        ∀ x, h2.get x = if lastPtr none (overwrite D vs) = some x then
          (h1.get x).map (fun n => { n with pNext := none }) else h1.get x := by
      cases hl : lastPtr none (overwrite D vs) with
      | none =>
        have hov : overwrite D vs = [] := by
          rcases List.eq_nil_or_concat (overwrite D vs) with e | ⟨l, x, e⟩
          · exact e
          · rw [e, List.concat_eq_append] at hl
            obtain ⟨a, v⟩ := x
            rw [lastPtr_concat] at hl
            cases hl
        refine ⟨h1, fun _ => ⟨?_, rfl⟩, fun p e => (by cases e), rfl, rfl, fun x => (by simp)⟩
        rw [hov]; rfl
      | some p =>
        have hne := lastPtr_none_nil hl
        obtain ⟨w, pv, hgp⟩ := lastPtr_live hseg1 hne hl
        refine ⟨h1.write p ⟨w, none, pv⟩, fun e => (by cases e), ?_, (by simp), rfl, ?_⟩
        · intro p2 e
          cases e
          refine ⟨Heap.setNext_eq hgp none, ?_⟩
          rw [hstart]
          exact firstPtr_of_ne_nil hne _ _
        · intro x
          rw [Heap.get_write]
          by_cases hx : x = p
          · subst hx; simp [Heap.get_lt hgp, hgp]
          · have hx2 : ¬ p = x := fun e => hx e.symm
            simp [hx, hx2]
    obtain ⟨h2, hcutN, hcutS, hlen2, hfreed2, hall2⟩ := hcut
    have hrest : IsSeg h2 (lastPtr none (D.take vs.length)) (some d) (D.drop vs.length) none := by
      rw [← hd]
      refine (IsSeg.drop hD vs.length).frame (fun a ha => ?_)
      have hna := hdrop_ov a ha
      have hnl : ¬ lastPtr none (overwrite D vs) = some a := fun e =>
        hna (lastPtr_mem (lastPtr_none_nil e) e)
      rw [hall2, hfr1 a hna]; simp [hnl]
    obtain ⟨h3, hclear, hlen3, hfreed3, hall3⟩ :=
      clear_seg (D.drop vs.length) h2 _ (some d) fuel hrest
        (by simp only [List.length_drop]; omega)
    have hfinal := hseg1.relink_last none hndov (g := h3) (fun a ha => by
      have hna : a ∉ addrs (D.drop vs.length) := fun hm => hdrop_ov a hm ha
      rw [hall3, hall2]; simp [hna])
    refine ⟨h3, ?_, hfinal, ?_, ?_, ?_, ?_⟩
    · cases hl : lastPtr none (overwrite D vs) with
      | none =>
        obtain ⟨e1, e2⟩ := hcutN hl
        subst e2
        simp [hclear, e1]
      | some p =>
        obtain ⟨e1, e2⟩ := hcutS p hl
        simp [hclear, e1, e2]
    · rw [hlen3, hlen2, hlen1]
    · rw [hfreed3, hfreed2, hfreed1]
    · intro x hxD
      have hx1 : x ∉ addrs (D.drop vs.length) := fun hm => by
        rw [addrs_drop] at hm
        exact hxD (List.mem_of_mem_drop hm)
      have hx2 : x ∉ addrs (overwrite D vs) := fun hm => hxD (hovD x hm)
      have hx3 : ¬ lastPtr none (overwrite D vs) = some x := fun e =>
        hx2 (lastPtr_mem (lastPtr_none_nil e) e)
      rw [hall3, hall2, hfr1 x hx2]; simp [hx1, hx3]
    · intro e
      exact absurd e hdr

/-- The effect of `assign` when the source is a tail run `S` of the destination
`P ++ S`: the destination keeps its first `|S|` nodes, now holding the source
values, and the `|P|` nodes beyond are deleted. -/
theorem assign_suffix_eq {h : Heap T} {pD : Ptr} {P S : List (Nat × T)} (fuel : Nat)
    (hD : IsChain h pD (P ++ S)) (hf : (P ++ S).length < fuel) :
    ∃ h3, assign fuel h pD (firstPtr S none) =
        some (firstPtr (overwrite (P ++ S) (values S)) none, h3) ∧
      IsChain h3 (firstPtr (overwrite (P ++ S) (values S)) none)
        (overwrite (P ++ S) (values S)) ∧
      values (overwrite (P ++ S) (values S)) = values S ∧
      h3.cells.length = h.cells.length ∧
      h3.freed = h.freed ++ addrs ((P ++ S).drop S.length) ∧
      (∀ x, x ∉ addrs (P ++ S) → h3.get x = h.get x) ∧
      (P = [] → h3 = h) := by
  have hfS : S.length < fuel := by simp only [List.length_append] at hf; omega
  obtain ⟨h1, hfill, hlen1, hfreed1, hfr1, hseg1⟩ :=
    assignFill_suffix S P (P ++ S) h none pD none fuel rfl hD hfS
  have hvl : (values S).length = S.length := values_length S
  rw [← hvl] at hfill hseg1
  obtain ⟨h3, hassign, hch, hlen3, hfreed3, hfr3, heq⟩ :=
    assign_after_fill fuel hD hfill hlen1 hfreed1 hfr1 hseg1 hf
  rw [hvl] at hfreed3 heq
  refine ⟨h3, hassign, hch, ?_, hlen3, hfreed3, hfr3, ?_⟩
  · rw [values_overwrite, List.take_of_length_le]
    rw [values_length]; simp
  · rintro rfl
    have hO : overwrite ([] ++ S) (values S) = S := overwrite_values_self S
    rw [hO] at hch hseg1 hfr1
    have hdr : ([] ++ S).drop S.length = [] := by simp
    rw [heq hdr]
    rw [hvl, hdr, firstPtr_nil] at hseg1
    refine Heap.ext_get hlen1 hfreed1 (fun x => ?_)
    by_cases hx : x ∈ addrs S
    · exact IsSeg.get_eq hD hseg1 x hx
    · exact hfr1 x hx

/-- C20: self-assignment `assign(D, D)` on a well-formed chain terminates and
returns the head reference and the heap it was given: no cell is added, no node
is deleted, and every node keeps its value and links. -/
theorem assign_self_noop (h : Heap T) (pD : Ptr) (D : List (Nat × T)) (fuel : Nat)
    (hD : IsChain h pD D) (hf : D.length < fuel) : assign fuel h pD pD = some (pD, h) := by
  have hD2 : IsChain h pD ([] ++ D) := hD
  obtain ⟨h3, hassign, _, _, _, _, _, heq⟩ := assign_suffix_eq fuel hD2 (by simpa using hf)
  have hO : overwrite ([] ++ D) (values D) = D := overwrite_values_self D
  rw [hO, heq rfl, ← hD.start] at hassign
  exact hassign

/-- Two runs that end at null and share a node: one is a tail of the other. -/
theorem IsSeg.suffix_of_shared {h : Heap T} {prevS pS : Ptr} {S : List (Nat × T)}
    (hS : IsSeg h prevS pS S none) (D : List (Nat × T)) :
    ∀ {prevD pD : Ptr}, IsSeg h prevD pD D none → (∃ a ∈ addrs D, a ∈ addrs S) →
      (∃ P, D = P ++ S) ∨ (∃ S1 x, S = (S1 ++ [x]) ++ D ∧ D ≠ []) := by
  induction D with
  | nil =>
    rintro prevD pD _ ⟨a, ha, _⟩
    simp [addrs] at ha
  | cons y D ih =>
    intro prevD pD hD hsh
    obtain ⟨a, v⟩ := y
    by_cases haS : a ∈ addrs S
    · obtain ⟨S1, v2, S2, rfl⟩ := mem_addrs_split haS
      obtain ⟨m, _, h2⟩ := IsSeg.append_iff.mp hS
      have hm : m = some a := h2.1
      have hp : pD = some a := hD.1
      rw [hm, ← hp] at h2
      have he := IsSeg.unique hD h2
      rcases List.eq_nil_or_concat S1 with rfl | ⟨S0, x, rfl⟩
      · exact Or.inl ⟨[], by simp [he]⟩
      · refine Or.inr ⟨S0, x, ?_, by simp⟩
        rw [he, List.concat_eq_append]
    · have hD0 := hD
      obtain ⟨_, nx, hget, hrest⟩ := hD
      obtain ⟨b, hbD, hbS⟩ := hsh
      rw [addrs_cons, List.mem_cons] at hbD
      have hbD2 : b ∈ addrs D := by
        rcases hbD with e | hb
        · simp only at e
          subst e
          exact absurd hbS haS
        · exact hb
      rcases ih hrest ⟨b, hbD2, hbS⟩ with ⟨P, hP⟩ | ⟨S1, x, hSx, hne⟩
      · exact Or.inl ⟨(a, v) :: P, by simp [hP]⟩
      · exfalso
        -- the head of `D` has `a` behind it, and the last node of `S1 ++ [x]` too
        cases D with
        | nil => exact hne rfl
        | cons z D2 =>
          obtain ⟨d, zv⟩ := z
          obtain ⟨_, nx2, hgd, _⟩ := hrest
          rw [hSx] at hS
          obtain ⟨m, _, h2⟩ := IsSeg.append_iff.mp hS
          obtain ⟨_, nx3, hgd2, _⟩ := h2
          rw [hgd] at hgd2
          obtain ⟨xa, xv⟩ := x
          rw [lastPtr_concat] at hgd2
          have hax : a = xa := by
            have := congrArg Node.pPrev (Option.some.inj hgd2)
            simpa using this
          apply haS
          rw [hSx, hax]
          simp [addrs]

/-- A well-formed chain and a run ending at null are disjoint, or the run is a
tail of the chain. -/
theorem IsChain.disjoint_or_suffix {h : Heap T} {pD prevS pS : Ptr} {D S : List (Nat × T)}
    (hD : IsChain h pD D) (hS : IsSeg h prevS pS S none) :
    (∀ a ∈ addrs D, a ∉ addrs S) ∨ (∃ P, D = P ++ S) := by
  by_cases hsh : ∃ a ∈ addrs D, a ∈ addrs S
  · rcases IsSeg.suffix_of_shared hS D hD hsh with hP | ⟨S1, x, hSx, hne⟩
    · exact Or.inr hP
    · exfalso
      cases D with
      | nil => exact hne rfl
      | cons z D2 =>
        obtain ⟨d, zv⟩ := z
        obtain ⟨_, nx2, hgd, _⟩ := hD
        rw [hSx] at hS
        obtain ⟨m, _, h2⟩ := IsSeg.append_iff.mp hS
        obtain ⟨_, nx3, hgd2, _⟩ := h2
        rw [hgd] at hgd2
        obtain ⟨xa, xv⟩ := x
        rw [lastPtr_concat] at hgd2
        have := congrArg Node.pPrev (Option.some.inj hgd2)
        simp at this
  · left
    intro a ha haS
    exact hsh ⟨a, ha, haS⟩

/-- Totality of `assign` for a destination head: whatever node of whatever
well-formed chain the source points at, the call returns a well-formed
destination holding the source values. -/
theorem assign_chain_total {h : Heap T} {pD prevS pS : Ptr} {D S : List (Nat × T)} (fuel : Nat)
    (hD : IsChain h pD D) (hS : IsSeg h prevS pS S none)
    (hfD : D.length < fuel) (hfS : S.length < fuel) :
    ∃ h1 pD1 L, assign fuel h pD pS = some (pD1, h1) ∧ IsChain h1 pD1 L ∧
      values L = values S := by
  rcases hD.disjoint_or_suffix hS with hdisj | ⟨P, rfl⟩
  · obtain ⟨h1, hassign, hch, _, _, _⟩ := assign_chain_eq fuel hD hS hdisj hfD hfS
    exact ⟨h1, _, _, hassign, hch, values_assignResult _ D S⟩
  · obtain ⟨h3, hassign, hch, hv, _, _, _, _⟩ := assign_suffix_eq fuel hD hfD
    rw [← hS.start] at hassign
    exact ⟨h3, _, _, hassign, hch, hv⟩

/-- C20 on the chain `[1, 2, 3]`: assigning the chain to itself changes nothing. -/
theorem assign_self_noop_witness :
    IsChain heap123 (some 0) [(0, 1), (1, 2), (2, 3)] ∧
    assign 4 heap123 (some 0) (some 0) = some (some 0, heap123) :=
  ⟨heap123_chain,
    assign_self_noop heap123 (some 0) [(0, 1), (1, 2), (2, 3)] 4 heap123_chain (by decide)⟩

/-- The second loop of `assign` never ends when the source pointer is the tail
node it appends behind: each new node becomes the next source node. -/
theorem assignGrow_chases_tail (fuel : Nat) :
    ∀ (h : Heap T) (pDest : Ptr) (d : Nat) (v : T) (pv : Ptr),
      h.get d = some ⟨v, none, pv⟩ → assignGrow fuel h pDest (some d) (some d) = none := by
  induction fuel with
  | zero => intro h pDest d v pv _; rfl
  | succ f ih =>
    intro h pDest d v pv hd
    have hdl := Heap.get_lt hd
    obtain ⟨h2, hins, _, _, hall⟩ := insert_after_eq h d v v none pv hd (by simp)
      (by intro q e; cases e)
    have hnew : h2.get h.cells.length = some ⟨v, none, some d⟩ := by
      rw [hall]; simp
    have hd2 : h2.get d = some ⟨v, some h.cells.length, pv⟩ := by
      rw [hall]; simp [Nat.ne_of_lt hdl]
    simp only [assignGrow, hd, Option.bind_eq_bind, Option.some_bind, hins, hd2]
    exact ih h2 _ h.cells.length v (some d) hnew

/-! ## The adjacency invariant -/

/-- The chain left by `insert` at a node of a well-formed chain, before or after
the node. -/
theorem insert_chain_wf {h : Heap T} {head : Ptr} {l1 l2 : List (Nat × T)} {c : Nat} {v : T}
    (hwf : IsChain h head (l1 ++ (c, v) :: l2)) (t : T) :
    (∃ h1, insert h (some c) t false = some (h.cells.length, h1) ∧
      IsChain h1 (firstPtr l1 (some h.cells.length))
        (l1 ++ (h.cells.length, t) :: (c, v) :: l2)) ∧
    (∃ h1, insert h (some c) t true = some (h.cells.length, h1) ∧
      IsChain h1 head (l1 ++ (c, v) :: (h.cells.length, t) :: l2)) := by
  obtain ⟨hs1, hget, hs2, nd1, nd2, hc1, hc2, hdisj⟩ := hwf.split
  have hlt1 := hs1.lt_length
  have hlt2 := hs2.lt_length
  have hcl := Heap.get_lt hget
  have hne : c ≠ h.cells.length := by omega
  have hpv : lastPtr none l1 ≠ some c := fun e => hc1 (lastPtr_mem (lastPtr_none_nil e) e)
  have hnx : firstPtr l2 none ≠ some c := fun e => hc2 (firstPtr_mem (firstPtr_none_nil e) e)
  have hp : ∀ p, lastPtr none l1 = some p → (h.get p).isSome := by
    intro p e
    obtain ⟨w, pv, hg⟩ := lastPtr_live hs1 (lastPtr_none_nil e) e
    simp [hg]
  have hq : ∀ q, firstPtr l2 none = some q → (h.get q).isSome := by
    intro q e
    obtain ⟨w, nx, hg⟩ := firstPtr_live hs2 (firstPtr_none_nil e) e
    simp [hg]
  constructor
  · obtain ⟨h1, hins, _, _, hall⟩ := insert_before_eq h c t v _ _ hget hpv hp
    refine ⟨h1, hins, IsSeg.append_iff.mpr
      ⟨some h.cells.length, ?_, rfl, some c, ?_, rfl, firstPtr l2 none, ?_, ?_⟩⟩
    · refine hs1.relink_last (some h.cells.length) nd1 (fun a ha => ?_)
      have h1a : a ≠ h.cells.length := by have := hlt1 a ha; omega
      have h2a : a ≠ c := fun e => hc1 (e ▸ ha)
      rw [hall]; simp [h1a, h2a]
    · rw [hall]; simp
    · rw [hall]; simp [hne]
    · refine hs2.frame (fun a ha => ?_)
      have h1a : a ≠ h.cells.length := by have := hlt2 a ha; omega
      have h2a : a ≠ c := fun e => hc2 (e ▸ ha)
      have h3a : ¬ lastPtr none l1 = some a := fun e =>
        hdisj a (lastPtr_mem (lastPtr_none_nil e) e) ha
      rw [hall]; simp [h1a, h2a, h3a]
  · obtain ⟨h1, hins, _, _, hall⟩ := insert_after_eq h c t v _ _ hget hnx hq
    refine ⟨h1, hins, IsSeg.append_iff.mpr
      ⟨some c, ?_, rfl, some h.cells.length, ?_, rfl, firstPtr l2 none, ?_, ?_⟩⟩
    · refine hs1.frame (fun a ha => ?_)
      have h1a : a ≠ h.cells.length := by have := hlt1 a ha; omega
      have h2a : a ≠ c := fun e => hc1 (e ▸ ha)
      have h3a : ¬ firstPtr l2 none = some a := fun e =>
        hdisj a ha (firstPtr_mem (firstPtr_none_nil e) e)
      rw [hall]; simp [h1a, h2a, h3a]
    · rw [hall]; simp [hne]
    · rw [hall]; simp
    · refine hs2.relink_first (some h.cells.length) nd2 (fun a ha => ?_)
      have h1a : a ≠ h.cells.length := by have := hlt2 a ha; omega
      have h2a : a ≠ c := fun e => hc2 (e ▸ ha)
      rw [hall]; simp [h1a, h2a]

/-- C13: each mutating operation on well-formed chains leaves a well-formed
chain: `insert` before or after any node and at null, `remove` of any node,
`copy` (the returned chain), and `assign` (the destination, whatever the two
lengths). -/
theorem adjacency_preserved (h : Heap T) (pD pS : Ptr) (D S : List (Nat × T)) (fuel : Nat)
    (t : T) (hD : IsChain h pD D) (hS : IsChain h pS S)
    (hfD : D.length < fuel) (hfS : S.length < fuel) :
    (∀ l1 c v l2, D = l1 ++ (c, v) :: l2 →
      (∃ h1, insert h (some c) t false = some (h.cells.length, h1) ∧
        IsChain h1 (firstPtr l1 (some h.cells.length))
          (l1 ++ (h.cells.length, t) :: (c, v) :: l2)) ∧
      (∃ h1, insert h (some c) t true = some (h.cells.length, h1) ∧
        IsChain h1 pD (l1 ++ (c, v) :: (h.cells.length, t) :: l2)) ∧
      (∃ ret h1, remove h (some c) = some (ret, h1) ∧
        IsChain h1 (firstPtr l1 (firstPtr l2 none)) (l1 ++ l2))) ∧
    (∀ after, ∃ h1, insert h none t after = some (h.cells.length, h1) ∧
      IsChain h1 (some h.cells.length) [(h.cells.length, t)] ∧ IsChain h1 pD D) ∧
    (∃ h1 pK K, copy fuel h pD = some (pK, h1) ∧ IsChain h1 pK K ∧ values K = values D ∧
      IsChain h1 pD D) ∧
    (∃ h1 pD1 L, assign fuel h pD pS = some (pD1, h1) ∧ IsChain h1 pD1 L ∧
      values L = values S ∧ L.length = S.length) := by
  refine ⟨?_, ?_, ?_, ?_⟩
  · rintro l1 c v l2 rfl
    obtain ⟨hb, ha⟩ := insert_chain_wf hD t
    obtain ⟨h1, hrem, _, _, _, hch⟩ := remove_chain_eq hD
    exact ⟨hb, ha, _, h1, hrem, hch⟩
  · intro after
    have hDl := IsSeg.lt_length hD
    refine ⟨(h.alloc t).2, insert_null_eq h t after, ⟨rfl, none, ?_, rfl⟩, ?_⟩
    · rw [Heap.get_alloc]; simp
    · refine IsSeg.frame hD (fun a ha => ?_)
      rw [Heap.get_alloc]; simp [Nat.ne_of_lt (hDl a ha)]
  · obtain ⟨h1, hcopy, _, _, hfr, hch⟩ := copy_chain_eq fuel hD (Nat.le_of_lt hfD)
    have hDl := IsSeg.lt_length hD
    exact ⟨h1, _, _, hcopy, hch, values_freshChain _ _,
      IsSeg.frame hD (fun a ha => hfr a (hDl a ha))⟩
  · obtain ⟨h1, pD1, L, hassign, hch, hv⟩ := assign_chain_total fuel hD hS hfD hfS
    refine ⟨h1, pD1, L, hassign, hch, hv, ?_⟩
    have := congrArg List.length hv
    rwa [values_length, values_length] at this

/-- C13 on the chain `[1, 2, 3, 4]` with the source `[9, 8]`: inserting before
the node holding 2, removing it, copying the chain and assigning from the source
each leave a well-formed chain. -/
theorem adjacency_preserved_witness :
    IsChain heapLongDest (some 0) [(0, 1), (1, 2), (2, 3), (3, 4)] ∧
    IsChain heapLongDest (some 4) [(4, 9), (5, 8)] ∧
    (∃ h1, insert heapLongDest (some 1) 7 false = some (6, h1) ∧
      IsChain h1 (some 0) [(0, 1), (6, 7), (1, 2), (2, 3), (3, 4)]) ∧
    (∃ ret h1, remove heapLongDest (some 1) = some (ret, h1) ∧
      IsChain h1 (some 0) [(0, 1), (2, 3), (3, 4)]) ∧
    (∃ h1 pK K, copy 5 heapLongDest (some 0) = some (pK, h1) ∧ IsChain h1 pK K) ∧
    (∃ h1 pD1 L, assign 5 heapLongDest (some 0) (some 4) = some (pD1, h1) ∧
      IsChain h1 pD1 L ∧ values L = [9, 8]) := by
  refine ⟨heapLongDest_dest, heapLongDest_source, ?_⟩
  obtain ⟨hpos, _, ⟨h3, pK, K, hc, hK, _, _⟩, ⟨h4, pD1, L, ha, hL, hv, _⟩⟩ :=
    adjacency_preserved heapLongDest (some 0) (some 4) [(0, 1), (1, 2), (2, 3), (3, 4)]
      [(4, 9), (5, 8)] 5 7 heapLongDest_dest heapLongDest_source (by decide) (by decide)
  obtain ⟨⟨h1, hi, hI⟩, _, ⟨ret, h2, hr, hR⟩⟩ := hpos [(0, 1)] 1 2 [(2, 3), (3, 4)] rfl
  exact ⟨⟨h1, hi, hI⟩, ⟨ret, h2, hr, hR⟩, ⟨h3, pK, K, hc, hK⟩, ⟨h4, pD1, L, ha, hL, hv⟩⟩

/-! ## A destination reference inside a node -/

theorem assignGrowRef_var (fuel : Nat) :
    ∀ (h : Heap T) (v pS pDesCur : Ptr),
      assignGrowRef Ref.var fuel h v pS pDesCur = assignGrow fuel h v pS pDesCur := by
  induction fuel with
  | zero => intro h v pS pDesCur; rfl
  | succ f ih =>
    intro h v pS pDesCur
    cases pS with
    | none => rfl
    | some s =>
      simp only [assignGrowRef, assignGrow, Ref.read, Ref.write, Option.bind_eq_bind,
        Option.some_bind]
      cases h.get s with
      | none => rfl
      | some src =>
        simp only [Option.some_bind]
        cases insert h pDesCur src.data true with
        | none => rfl
        | some r =>
          obtain ⟨d, h2⟩ := r
          simp only [Option.some_bind]
          cases v with
          | none =>
            simp only [Option.some_bind]
            cases h2.get s with
            | none => rfl
            | some src2 => simp only [Option.some_bind]; exact ih _ _ _ _
          | some p =>
            simp only [Option.some_bind, pure]
            cases h2.get s with
            | none => rfl
            | some src2 => simp only [Option.some_bind]; exact ih _ _ _ _

/-- On a reference held in a caller's variable, `assignRef` is `assign`. -/
theorem assignRef_var (fuel : Nat) (h : Heap T) (v pS : Ptr) :
    assignRef Ref.var fuel h v pS = assign fuel h v pS := by
  simp only [assignRef, assign, Ref.read, Ref.write, Option.bind_eq_bind, Option.some_bind]
  cases assignFill fuel h pS v none with
  | none => rfl
  | some r =>
    obtain ⟨h1, pSrcCur, pDesCur, pDesPrevious⟩ := r
    simp only [Option.some_bind]
    cases pSrcCur with
    | some s => exact assignGrowRef_var fuel h1 v (some s) pDesPrevious
    | none =>
      cases pDesCur with
      | none => rfl
      | some d =>
        cases pDesPrevious with
        | none => rfl
        | some p => rfl

/-- The second loop of `assign` never ends when the source pointer is the tail
node it appends behind, also with the destination reference in a node's `pNext`
that is already non-null. -/
theorem assignGrowRef_chases_tail (a : Nat) (fuel : Nat) :
    ∀ (h : Heap T) (v : Ptr) (d : Nat) (val : T) (pv : Ptr) (an : Node T) (q : Nat),
      h.get d = some ⟨val, none, pv⟩ → a ≠ d → h.get a = some an → an.pNext = some q →
      assignGrowRef (Ref.next a) fuel h v (some d) (some d) = none := by
  induction fuel with
  | zero => intro h v d val pv an q _ _ _ _; rfl
  | succ f ih =>
    intro h v d val pv an q hd had ha hq
    have hdl := Heap.get_lt hd
    have hal := Heap.get_lt ha
    obtain ⟨h2, hins, _, _, hall⟩ := insert_after_eq h d val val none pv hd (by simp)
      (by intro q e; cases e)
    have hnew : h2.get h.cells.length = some ⟨val, none, some d⟩ := by
      rw [hall]; simp
    have hd2 : h2.get d = some ⟨val, some h.cells.length, pv⟩ := by
      rw [hall]; simp [Nat.ne_of_lt hdl]
    have ha2 : h2.get a = some an := by
      rw [hall]; simp [Nat.ne_of_lt hal, had, ha]
    simp only [assignGrowRef, hd, Option.bind_eq_bind, Option.some_bind, hins, Ref.read, ha2,
      Option.map_some', hq, pure, hd2]
    exact ih h2 v h.cells.length val (some d) an q hnew (Nat.ne_of_lt hal) ha2 hq

/-- C14 fails as stated.  On the chain `[1, 2]`, with the destination reference
a variable at the second node: assigning from the head of the same chain never
returns, whatever the fuel; and assigning from null deletes the second node
while the first node still points at it.  On the one-node chain `[5]`, with the
destination reference the node's own null `pNext`: assigning from the node never
returns, since the first appended node is stored into that `pNext` and every
appended node is the next source node. -/
theorem assign_not_total :
    (¬ ∃ fuel r, assign fuel heap12 (some 1) (some 0) = some r) ∧
    (∃ h1, assign 3 heap12 (some 1) none = some (none, h1) ∧
      h1.get 0 = some ⟨1, some 1, none⟩ ∧ h1.get 1 = none) ∧
    (heap5.get 0 = some ⟨5, none, none⟩ ∧
      ¬ ∃ fuel v r, assignRef (Ref.next 0) fuel heap5 v (some 0) = some r) := by
  refine ⟨?_, ?_, rfl, ?_⟩
  · rintro ⟨fuel, r, he⟩
    cases fuel with
    | zero => cases he
    | succ f =>
      cases f with
      | zero => cases he
      | succ f2 =>
        have hfill : assignFill (f2 + 2) heap12 (some 0) (some 1) none =
            some (⟨[some ⟨1, some 1, none⟩, some ⟨1, none, some 0⟩], []⟩, some 1, none, some 1) :=
          rfl
        have hgrow := assignGrow_chases_tail (f2 + 2)
          (⟨[some ⟨1, some 1, none⟩, some ⟨1, none, some 0⟩], []⟩ : Heap Nat) (some 1) 1 1
          (some 0) rfl
        simp only [assign, hfill, Option.bind_eq_bind, Option.some_bind, hgrow] at he
        cases he
  · exact ⟨⟨[some ⟨1, some 1, none⟩, none], [1]⟩, by decide, by decide, by decide⟩
  · rintro ⟨fuel, v, r, he⟩
    cases fuel with
    | zero => cases he
    | succ f =>
      have hstep : assignRef (Ref.next 0) (f + 1) heap5 v (some 0) =
          assignGrowRef (Ref.next 0) f
            (⟨[some ⟨5, some 1, none⟩, some ⟨5, none, none⟩], []⟩ : Heap Nat) v (some 1)
            (some 1) := rfl
      have hgrow := assignGrowRef_chases_tail 0 f
        (⟨[some ⟨5, some 1, none⟩, some ⟨5, none, none⟩], []⟩ : Heap Nat) v 1 5 none
        ⟨5, some 1, none⟩ 1 rfl (by decide) rfl rfl
      rw [hstep, hgrow] at he
      cases he

/-- C14, amended: for a destination reference held in a variable outside the
nodes that is null or the head of a finite well-formed chain, and a source
pointer that is null or at any node of a finite well-formed chain, the same
chain or another, `assign` terminates and leaves the destination a well-formed
chain, holding the values the source run had. -/
theorem assign_total_for_head (h : Heap T) (pD prevS pS : Ptr) (D S : List (Nat × T))
    (fuel : Nat) (hD : IsChain h pD D) (hS : IsSeg h prevS pS S none)
    (hfD : D.length < fuel) (hfS : S.length < fuel) :
    ∃ h1 pD1 L, assignRef Ref.var fuel h pD pS = some (pD1, h1) ∧
      assign fuel h pD pS = some (pD1, h1) ∧ IsChain h1 pD1 L ∧
      values L = values S ∧ L.length = S.length ∧ (addrs L).Nodup := by
  obtain ⟨h1, pD1, L, hassign, hch, hv⟩ := assign_chain_total fuel hD hS hfD hfS
  refine ⟨h1, pD1, L, ?_, hassign, hch, hv, ?_, IsSeg.nodup hch⟩
  · rw [assignRef_var]; exact hassign
  · have := congrArg List.length hv
    rwa [values_length, values_length] at this

/-- C14, amended, on the chain `[1, 2, 3]` with the source at its second node:
the destination becomes a well-formed chain holding `[2, 3]`. -/
theorem assign_total_for_head_witness :
    IsChain heap123 (some 0) [(0, 1), (1, 2), (2, 3)] ∧
    IsSeg heap123 (some 0) (some 1) [(1, 2), (2, 3)] none ∧
    ∃ h1 pD1 L, assignRef Ref.var 4 heap123 (some 0) (some 1) = some (pD1, h1) ∧
      IsChain h1 pD1 L ∧ values L = [2, 3] := by
  have hS : IsSeg heap123 (some 0) (some 1) [(1, 2), (2, 3)] none :=
    ⟨rfl, some 2, rfl, rfl, none, rfl, rfl⟩
  refine ⟨heap123_chain, hS, ?_⟩
  obtain ⟨h1, pD1, L, ha, _, hch, hv, _, _⟩ :=
    assign_total_for_head heap123 (some 0) (some 0) (some 1) [(0, 1), (1, 2), (2, 3)]
      [(1, 2), (2, 3)] 4 heap123_chain hS (by decide) (by decide)
  exact ⟨h1, pD1, L, ha, hch, hv⟩

end NodeChain
